import Mathlib

/-!
Verification of the go-duration codec (Rust crate): a parser and formatter
for Go-style duration strings backed by a signed 64-bit nanosecond count.

The development shallowly embeds the code of src/src/lib.rs, src/src/nom.rs
and src/src/serde.rs.  Strings are embedded as `List Char`, machine integers
as `Nat`/`Int` with explicit bounds, the nom parser results as an `Except`
over an error wrapper distinguishing recoverable errors from committed
failures, and the f64 arithmetic used for fractional digits as exact
rationals rounded to 53-bit precision after every operation.
-/

set_option maxRecDepth 4000

/-- The error enumeration of src/src/lib.rs (`GoDurationParseError`). -/
inductive GoDurationParseError : Type where
  | invalidDuration : GoDurationParseError
  | missingUnit : GoDurationParseError
  | unknownUnit (text : String) : GoDurationParseError
  deriving DecidableEq, Repr

/-- nom error wrapper: `Err::Error` is recoverable (alternatives may be
tried), `Err::Failure` is committed (produced by `cut`).  The `Incomplete`
variant never arises for the complete-input combinators used here. -/
inductive NomErr (E : Type) : Type where
  | error (e : E) : NomErr E
  | failure (e : E) : NomErr E
  deriving DecidableEq, Repr

/-- nom `IResult<&str, A, GoDurationParseError>`: on success, the remaining
input together with the produced value. -/
abbrev IRes (α : Type) : Type := Except (NomErr GoDurationParseError) (List Char × α)

/-- `pub struct GoDuration(pub i64)` of src/src/lib.rs.  The i64 field is
embedded as an `Int`; every constructed value is range-checked by the
parser before construction. -/
structure GoDuration : Type where
  nanoseconds : Int
  deriving DecidableEq, Repr

def NANOS_PER_MICROSECOND : Nat := 1000
def NANOS_PER_MILLISECOND : Nat := 1000000
def NANOS_PER_SECOND : Nat := 1000000000
def NANOS_PER_MINUTE : Nat := NANOS_PER_SECOND * 60
def NANOS_PER_HOUR : Nat := NANOS_PER_MINUTE * 60

def u64Max : Nat := 18446744073709551615
def i64MaxNat : Nat := 9223372036854775807

/-- `u64::saturating_mul`. -/
def satMul (a b : Nat) : Nat := min (a * b) u64Max

/-- `u64::saturating_add`. -/
def satAdd (a b : Nat) : Nat := min (a + b) u64Max

/-- `0i64.checked_sub_unsigned(n)`: `some (-n)` unless the result would
fall below `i64::MIN`. -/
def checkedSubUnsigned (n : Nat) : Option Int :=
  if (n : Int) ≤ 9223372036854775808 then some (0 - (n : Int)) else none

/-- `char::is_ascii_digit` composed with `to_digit(10)`: the numeric value
of an ASCII digit character.  The parser only applies it to characters
accepted by `digit0`/`digit1`, for which `to_digit(10).unwrap()` cannot
panic. -/
def digitVal (c : Char) : Nat := c.toNat - 48

/-- The ASCII digit character of a digit value below 10 (used by the
embedding of Rust integer Display formatting). -/
def digitChar (d : Nat) : Char := Char.ofNat (48 + d)

/-- The `take_till` stop condition of the `unit` sub-parser:
`c.is_ascii_digit() || c == '.'`. -/
def stopChar (c : Char) : Bool := c.isDigit || c == '.'

/-! ## Exact model of IEEE-754 binary64 arithmetic

The fractional-digit loop of the parser works on `f64`.  An `f64` value is
embedded as the exact rational it denotes; each arithmetic operation is
followed by `roundF64`, correct rounding to 53 significant bits
(round-to-nearest, ties-to-even) with gradual underflow below `2^-1074`.
All values arising in the parser are below `2^52`, far inside the finite
range, so overflow to infinity cannot occur and is not modelled. -/

/-- Fuelled floor-log2 on `Nat` (structural recursion so that kernel
reduction works; `natLog2` supplies sufficient fuel). -/
def natLog2F : Nat → Nat → Nat
  | 0, _ => 0
  | f + 1, n => if n < 2 then 0 else natLog2F f (n / 2) + 1

def natLog2 (n : Nat) : Nat := natLog2F n n

/-- Floor of log2 of a positive rational. -/
def qlog2 (q : ℚ) : ℤ :=
  let e0 : ℤ := (natLog2 q.num.toNat : ℤ) - (natLog2 q.den : ℤ)
  if q < (2 : ℚ) ^ e0 then e0 - 1 else e0

/-- Round a rational to the nearest integer, ties to even. -/
def rne (x : ℚ) : ℤ :=
  let f : ℤ := ⌊x⌋
  let r : ℚ := x - f
  if r < 1 / 2 then f
  else if 1 / 2 < r then f + 1
  else if 2 ∣ f then f else f + 1

/-- Correct rounding of a rational to an f64 value (round-to-nearest,
ties-to-even, 53-bit significand, gradual underflow at `2^-1074`). -/
def roundF64 (q : ℚ) : ℚ :=
  if q = 0 then 0
  else
    let e : ℤ := max (qlog2 |q| - 52) (-1074)
    ((rne (q / (2 : ℚ) ^ e) : ℤ) : ℚ) * (2 : ℚ) ^ e

/-- The fractional-digit evaluation loop shared verbatim by
src/src/lib.rs lines 150-156 and src/src/nom.rs lines 74-80:

  let mut total = 0.0;
  let mut scale = scale as f64;
  for c in frac.chars() {
      scale /= 10.0;
      total += scale * c.to_digit(10).unwrap() as f64;
  }

Every f64 operation is modelled by the exact operation followed by
`roundF64`. -/
def fracLoop (total fscale : ℚ) : List Nat → ℚ
  | [] => total
  | d :: ds =>
    let s2 := roundF64 (fscale / 10)
    fracLoop (roundF64 (total + roundF64 (s2 * (d : ℚ)))) s2 ds

/-- `total as u64` applied to the loop result: an in-range nonnegative f64
converts by truncation toward zero (the cast saturates at the u64 bounds;
the loop total is nonnegative and far below `u64::MAX`, and NaN cannot
arise from finite nonnegative sums).  `scale as f64` is exact: every unit
multiplier is below `2^53`. -/
def fracNanos (scale : Nat) (frac : List Char) : Nat :=
  min (⌊fracLoop 0 (scale : ℚ) (frac.map digitVal)⌋).toNat u64Max

/-! ## nom combinators

Generic embeddings of the nom combinators the two parser files use.
`GoDurationParseError::from_error_kind` discards the error kind and always
returns `InvalidDuration` (src/src/lib.rs lines 27-35), so the embedded
combinators produce `.invalidDuration` wherever nom would call
`from_error_kind`. -/

/-- `character::complete::char(c)`. -/
def charP (c : Char) (input : List Char) : IRes Char :=
  match input with
  | x :: rest => if x = c then .ok (rest, c) else .error (.error .invalidDuration)
  | [] => .error (.error .invalidDuration)

/-- `bytes::complete::tag(t)` on string tags. -/
def matchTag : List Char → List Char → Option (List Char)
  | [], input => some input
  | _ :: _, [] => none
  | t :: ts, x :: rest => if x = t then matchTag ts rest else none

def tagP (t : List Char) (input : List Char) : IRes (List Char) :=
  match matchTag t input with
  | some rest => .ok (rest, t)
  | none => .error (.error .invalidDuration)

/-- `character::complete::digit1`: one or more ASCII digits. -/
def digit1 (input : List Char) : IRes (List Char) :=
  let ds := input.takeWhile Char.isDigit
  if ds.isEmpty then .error (.error .invalidDuration)
  else .ok (input.dropWhile Char.isDigit, ds)

/-- `character::complete::digit0`: zero or more ASCII digits. -/
def digit0 (input : List Char) : IRes (List Char) :=
  .ok (input.dropWhile Char.isDigit, input.takeWhile Char.isDigit)

/-- `branch::alt` on two alternatives: a committed failure propagates, a
recoverable error falls through to the second branch. -/
def altP {α : Type} (p q : List Char → IRes α) (input : List Char) : IRes α :=
  match p input with
  | .ok r => .ok r
  | .error (.failure e) => .error (.failure e)
  | .error (.error _) => q input

/-- `combinator::opt`. -/
def optP {α : Type} (p : List Char → IRes α) (input : List Char) : IRes (Option α) :=
  match p input with
  | .ok (rest, v) => .ok (rest, some v)
  | .error (.failure e) => .error (.failure e)
  | .error (.error _) => .ok (input, none)

/-- `combinator::cut`: upgrade a recoverable error to a committed failure. -/
def cutP {α : Type} (p : List Char → IRes α) (input : List Char) : IRes α :=
  match p input with
  | .error (.error e) => .error (.failure e)
  | r => r

/-- `combinator::all_consuming`: succeed only if the inner parser leaves no
input; leftover input becomes `from_error_kind(_, Eof)` = InvalidDuration. -/
def allConsuming {α : Type} (p : List Char → IRes α) (input : List Char) : IRes α :=
  match p input with
  | .ok (rest, v) =>
    if rest.isEmpty then .ok (rest, v) else .error (.error .invalidDuration)
  | .error e => .error e

/-- The loop of `multi::fold_many1` (nom 7): iterate the item parser,
stopping at a recoverable error, propagating a committed failure, and
treating an iteration that consumes no input as `Failure(Many1)` =
InvalidDuration.  Structural recursion on fuel; since every successful
iteration strictly consumes input, fuel `input.length + 1` can never be
exhausted, and the fuel-0 branch mirrors the stop case. -/
def foldLoopF (g : Nat → Nat → Nat) (f : List Char → IRes Nat) :
    Nat → Nat → List Char → IRes Nat
  | 0, acc, input => .ok (input, acc)
  | fuel + 1, acc, input =>
    match f input with
    | .error (.error _) => .ok (input, acc)
    | .error (.failure e) => .error (.failure e)
    | .ok (i, o) =>
      if i.length < input.length then foldLoopF g f fuel (g acc o) i
      else .error (.failure .invalidDuration)

/-- `multi::fold_many1(f, || 0u64, g)`: the first item must succeed (a
recoverable first error becomes `Error(Many1)` = InvalidDuration), then the
loop folds with `g`.  Both parser files instantiate `g` with
`u64::saturating_add`. -/
def foldMany1 (g : Nat → Nat → Nat) (f : List Char → IRes Nat) (input : List Char) : IRes Nat :=
  match f input with
  | .error (.error _) => .error (.error .invalidDuration)
  | .error (.failure e) => .error (.failure e)
  | .ok (i, o) => foldLoopF g f (i.length + 1) (g 0 o) i

/-- `sequence::preceded`. -/
def precededP {α β : Type} (p : List Char → IRes α) (q : List Char → IRes β)
    (input : List Char) : IRes β :=
  match p input with
  | .ok (rest, _) => q rest
  | .error e => .error e

/-- `combinator::value`. -/
def valueP {α β : Type} (v : α) (p : List Char → IRes β) (input : List Char) : IRes α :=
  match p input with
  | .ok (rest, _) => .ok (rest, v)
  | .error e => .error e

/-- `str::parse::<u64>` on a digit string: the numeric value, required to
fit in `u64`. -/
def digitsToNat (ds : List Char) : Nat := ds.foldl (fun a c => 10 * a + digitVal c) 0

/-! ## The sub-parsers

src/src/lib.rs (lines 108-142) and src/src/nom.rs (lines 33-67) contain
byte-identical copies of `decimal_parts`, `sign` and `unit`; they are
embedded once and used by both top-level parsers. -/

/-- First alternative of `decimal_parts`: `preceded(char('.'), digit1)`
mapped to `(0, Some(frac))`. -/
def dpDotFirst (input : List Char) : IRes (Nat × Option (List Char)) :=
  match precededP (charP '.') digit1 input with
  | .ok (rest, frac) => .ok (rest, (0, some frac))
  | .error e => .error e

/-- Second alternative of `decimal_parts`:
`pair(map_res(digit1, str::parse::<u64>), opt(preceded(char('.'), digit0)))`.
`map_res` turns an over-`u64::MAX` integer literal into
`from_external_error` = InvalidDuration. -/
def dpIntFirst (input : List Char) : IRes (Nat × Option (List Char)) :=
  match digit1 input with
  | .ok (r1, ds) =>
    if digitsToNat ds ≤ u64Max then
      match optP (precededP (charP '.') digit0) r1 with
      | .ok (r2, frac) => .ok (r2, (digitsToNat ds, frac))
      | .error e => .error e
    else .error (.error .invalidDuration)
  | .error e => .error e

/-- `decimal_parts` (src/src/lib.rs lines 108-116): either `.digits`, or
`digits` optionally followed by `.` and further digits. -/
def decimal_parts (input : List Char) : IRes (Nat × Option (List Char)) :=
  altP dpDotFirst dpIntFirst input

/-- `sign` (src/src/lib.rs lines 118-122): optional `-` (negative) or `+`
(positive); absence is positive. -/
def sign (input : List Char) : IRes Bool :=
  match optP (altP (valueP false (charP '-')) (valueP true (charP '+'))) input with
  | .ok (rest, s) => .ok (rest, s.getD true)
  | .error e => .error e

/-- The unit-table alternation inside `unit` (src/src/lib.rs lines
129-138), tried in source order against the candidate text. -/
def unitAlt (input : List Char) : IRes Nat :=
  altP (valueP 1 (tagP ['n', 's']))
    (altP (valueP NANOS_PER_MICROSECOND (tagP ['µ', 's']))
      (altP (valueP NANOS_PER_MICROSECOND (tagP ['μ', 's']))
        (altP (valueP NANOS_PER_MICROSECOND (tagP ['u', 's']))
          (altP (valueP NANOS_PER_MILLISECOND (tagP ['m', 's']))
            (altP (valueP NANOS_PER_SECOND (charP 's'))
              (altP (valueP NANOS_PER_MINUTE (charP 'm'))
                (valueP NANOS_PER_HOUR (charP 'h'))))))))
    input

/-- `unit` (src/src/lib.rs lines 124-142): `take_till` the next digit or
dot, reject an empty candidate as MissingUnit, then require the candidate
to be exactly one table entry, otherwise UnknownUnit with the candidate
text as written. -/
def unit (input : List Char) : IRes Nat :=
  let cand := input.takeWhile (fun c => !stopChar c)
  let rest := input.dropWhile (fun c => !stopChar c)
  if cand.isEmpty then .error (.error .missingUnit)
  else
    match allConsuming unitAlt cand with
    | .ok (_, scale) => .ok (rest, scale)
    | .error _ => .error (.error (.unknownUnit (String.mk cand)))

/-! ## The two top-level parsers -/

/-- The segment item of `parse_go_duration` (src/src/lib.rs lines 147-160):
`tuple((decimal_parts, cut(unit)))` mapped through the closure computing
`int.saturating_mul(scale).saturating_add(nanos)`, the fraction evaluated
by `frac.map(..).unwrap_or(0)`. -/
def segItemLib (input : List Char) : IRes Nat :=
  match decimal_parts input with
  | .error e => .error e
  | .ok (r1, (int, frac)) =>
    match cutP unit r1 with
    | .error e => .error e
    | .ok (r2, scale) =>
      let nanos := (frac.map (fun fs => fracNanos scale fs)).getD 0
      .ok (r2, satAdd (satMul int scale) nanos)

/-- The segment item of `go_duration` (src/src/nom.rs lines 72-83),
identical except the fraction is evaluated by `frac.map_or(0, ..)`. -/
def segItemNom (input : List Char) : IRes Nat :=
  match decimal_parts input with
  | .error e => .error e
  | .ok (r1, (int, frac)) =>
    match cutP unit r1 with
    | .error e => .error e
    | .ok (r2, scale) =>
      let nanos := frac.elim 0 (fun fs => fracNanos scale fs)
      .ok (r2, satAdd (satMul int scale) nanos)

/-- `i64::try_from(u64)`. -/
def i64TryFrom (n : Nat) : Option Int :=
  if n ≤ i64MaxNat then some (n : Int) else none

/-- `parse_go_duration` (src/src/lib.rs lines 144-177). -/
def parse_go_duration (input : List Char) : IRes GoDuration :=
  match sign input with
  | .error e => .error e
  | .ok (i1, sgn) =>
    match allConsuming (foldMany1 satAdd segItemLib) i1 with
    | .error e => .error e
    | .ok (i2, nanos) =>
      if sgn then
        if nanos ≤ i64MaxNat then .ok (i2, ⟨(nanos : Int)⟩)
        else .error (.error .invalidDuration)
      else
        match checkedSubUnsigned nanos with
        | some v => .ok (i2, ⟨v⟩)
        | none => .error (.error .invalidDuration)

/-- `go_duration` (src/src/nom.rs lines 69-96): identical to
`parse_go_duration` except the positive-sign range check goes through
`i64::try_from`. -/
def go_duration (input : List Char) : IRes GoDuration :=
  match sign input with
  | .error e => .error e
  | .ok (i1, sgn) =>
    match allConsuming (foldMany1 satAdd segItemNom) i1 with
    | .error e => .error e
    | .ok (i2, nanos) =>
      if sgn then
        match i64TryFrom nanos with
        | some v => .ok (i2, ⟨v⟩)
        | none => .error (.error .invalidDuration)
      else
        match checkedSubUnsigned nanos with
        | some v => .ok (i2, ⟨v⟩)
        | none => .error (.error .invalidDuration)

/-- The `FromStr` impl (src/src/lib.rs lines 94-100):
`parse_go_duration(s).finish().map(|(_, dur)| dur)`; `finish` strips the
Error/Failure wrapper. -/
def goDurationFromStr (s : String) : Except GoDurationParseError GoDuration :=
  match parse_go_duration s.toList with
  | .ok (_, d) => .ok d
  | .error (.error e) => .error e
  | .error (.failure e) => .error e

/-! ## The formatter

`impl fmt::Display for GoDuration` (src/src/lib.rs lines 53-92).  The
source prints the sub-unit remainder as `nanos as f64 / scale as f64` with
Rust's default float Display (shortest decimal that round-trips).  In every
branch the dividend is below `2^53` (hour and minute branches print the
remainder modulo one minute, below `6*10^10`), so the `as f64` conversion
is exact, and the exact quotient `nanos / 10^k` has at most 11 significant
decimal digits.  Neighbouring f64 values around such a quotient differ
only beyond the 15th significant digit, so the quotient itself is the
unique shortest decimal identifying its rounding — Rust therefore prints
exactly the decimal expansion of `nanos / 10^k` with trailing fractional
zeros trimmed and no decimal point for whole values, which is what
`fmtDecChars` constructs directly. -/

/-- The `k`-digit zero-padded decimal expansion of `fp < 10^k`, most
significant digit first. -/
def padDigits : Nat → Nat → List Nat
  | 0, _ => []
  | k + 1, fp => fp / 10 ^ k :: padDigits k (fp % 10 ^ k)

/-- Trim trailing zero digits. -/
def stripZeros (ds : List Nat) : List Nat :=
  (ds.reverse.dropWhile (fun d => d == 0)).reverse

/-- Fuelled decimal printing of a Nat (fuel `n + 1` suffices). -/
def natDigitsF : Nat → Nat → List Nat
  | 0, _ => []
  | f + 1, n => if n < 10 then [n] else natDigitsF f (n / 10) ++ [n % 10]

/-- Decimal Display of a `u64` value, most significant digit first
(Rust `{}` on unsigned integers). -/
def natDigits (n : Nat) : List Char := (natDigitsF (n + 1) n).map digitChar

/-- Rust `{}` Display of `nanos as f64 / 10^k as f64` (see the section
comment: for the values the formatter produces this equals the exact
decimal with trailing fractional zeros trimmed). -/
def fmtDecChars (nanos k : Nat) : List Char :=
  natDigits (nanos / 10 ^ k) ++
    (if nanos % 10 ^ k = 0 then []
     else '.' :: (stripZeros (padDigits k (nanos % 10 ^ k))).map digitChar)

/-- The magnitude part of Display: unit selection by thresholds on
`nanos.unsigned_abs()` (src/src/lib.rs lines 59-91). -/
def fmtMagChars (m : Nat) : List Char :=
  if NANOS_PER_HOUR ≤ m then
    natDigits (m / NANOS_PER_HOUR) ++ ['h'] ++
      natDigits (m % NANOS_PER_HOUR / NANOS_PER_MINUTE) ++ ['m'] ++
      fmtDecChars (m % NANOS_PER_HOUR % NANOS_PER_MINUTE) 9 ++ ['s']
  else if NANOS_PER_MINUTE ≤ m then
    natDigits (m / NANOS_PER_MINUTE) ++ ['m'] ++
      fmtDecChars (m % NANOS_PER_MINUTE) 9 ++ ['s']
  else if NANOS_PER_SECOND ≤ m then fmtDecChars m 9 ++ ['s']
  else if NANOS_PER_MILLISECOND ≤ m then fmtDecChars m 6 ++ ['m', 's']
  else if NANOS_PER_MICROSECOND ≤ m then fmtDecChars m 3 ++ ['µ', 's']
  else if 0 < m then natDigits m ++ ['n', 's']
  else ['0', 's']

/-- Display for `GoDuration` as a character list: a leading `-` iff the
value is negative (`i64::is_negative`), then the magnitude of
`unsigned_abs()`. -/
def fmtChars (n : Int) : List Char :=
  (if n < 0 then ['-'] else []) ++ fmtMagChars n.natAbs

/-- `GoDuration::to_string()`. -/
def fmtGoDuration (d : GoDuration) : String := String.mk (fmtChars d.nanoseconds)

/-! ## The serde adapter (src/src/serde.rs), string mode

A self-describing deserializer hands the visitor one token; the adapter is
embedded at the visitor level as a function of that token. -/

inductive SerdeToken : Type where
  | str (s : String) : SerdeToken
  | i64 (n : Int) : SerdeToken
  | u64 (n : Nat) : SerdeToken
  deriving DecidableEq, Repr

/-- Modelled from the spec: the `From<i64>` impl for `GoDuration` invoked
by `visit_i64` (src/src/serde.rs line 36) is not part of the given source
files (the example `42.into()` and the visitor are its callers); per §4.3
an integer token is treated as raw nanoseconds. -/
def GoDuration.fromI64 (n : Int) : GoDuration := ⟨n⟩

/-- Modelled from the spec: the `TryFrom<&str>` impl for `GoDuration`
invoked by `visit_str` (src/src/serde.rs line 54) is not part of the given
source files; per §4.3 a string token decodes via the Parser, i.e. the
same contract as the `FromStr` impl embedded above. -/
def GoDuration.tryFromStr (s : String) : Except GoDurationParseError GoDuration :=
  goDurationFromStr s

/-- `GoDurationVisitor::visit_i64` (src/src/serde.rs lines 32-37). -/
def visitI64 (n : Int) : Except GoDurationParseError GoDuration :=
  .ok (GoDuration.fromI64 n)

/-- `GoDurationVisitor::visit_u64` (src/src/serde.rs lines 39-48): values
above `i64::MAX` are rejected with `E::custom(InvalidDuration)`. -/
def visitU64 (n : Nat) : Except GoDurationParseError GoDuration :=
  if n ≤ i64MaxNat then visitI64 (n : Int) else .error .invalidDuration

/-- `GoDurationVisitor::visit_str` (src/src/serde.rs lines 50-55). -/
def visitStr (s : String) : Except GoDurationParseError GoDuration :=
  GoDuration.tryFromStr s

/-- String-mode decoding: `deserialize_str(GoDurationVisitor)` dispatching
on the token the deserializer presents. -/
def deserializeGoDuration : SerdeToken → Except GoDurationParseError GoDuration
  | .str s => visitStr s
  | .i64 n => visitI64 n
  | .u64 n => visitU64 n

/-- String-mode encoding: `serializer.collect_str(&self)` emits the
Display string (src/src/serde.rs lines 5-12). -/
def serializeGoDuration (d : GoDuration) : SerdeToken := .str (fmtGoDuration d)

/-! ## Comparison (spec §3) -/

/-- Modelled from the spec: §3 declares the duration value a total order
(comparable, orderable).  The comparison impls are not part of the given
source files (the serde test deriving `PartialEq` on a struct containing a
`GoDuration` is their caller); the spec order compares the underlying
signed 64-bit nanosecond counts. -/
def GoDuration.le (a b : GoDuration) : Prop := a.nanoseconds ≤ b.nanoseconds

instance (a b : GoDuration) : Decidable (GoDuration.le a b) :=
  inferInstanceAs (Decidable (a.nanoseconds ≤ b.nanoseconds))

/-! ## Reference accumulator for the saturation claim

`segItemExact`/`foldMany1 Nat.add` is the unbounded-arithmetic reference
accumulation used only to state what the saturating fold protects against:
it follows exactly the same parsing steps as `segItemLib`, with plain
multiplication and addition in place of the saturating ones. -/

def segItemExact (input : List Char) : IRes Nat :=
  match decimal_parts input with
  | .error e => .error e
  | .ok (r1, (int, frac)) =>
    match cutP unit r1 with
    | .error e => .error e
    | .ok (r2, scale) =>
      let nanos := (frac.map (fun fs => fracNanos scale fs)).getD 0
      .ok (r2, int * scale + nanos)

/-! ## Statement helpers -/

instance {ε α : Type} [DecidableEq ε] [DecidableEq α] : DecidableEq (Except ε α) := fun x y =>
  match x, y with
  | .ok a, .ok b =>
    if h : a = b then isTrue (by rw [h]) else isFalse (fun hh => by cases hh; exact h rfl)
  | .ok _, .error _ => isFalse (fun hh => by cases hh)
  | .error _, .ok _ => isFalse (fun hh => by cases hh)
  | .error a, .error b =>
    if h : a = b then isTrue (by rw [h]) else isFalse (fun hh => by cases hh; exact h rfl)

/-- The unit table as an exact-match lookup, in source order; used to state
that the candidate matching inside `unit` (first prefix match, then
required-empty remainder) is exact matching against the table. -/
def unitExact (cand : List Char) : Option Nat :=
  if cand = ['n', 's'] then some 1
  else if cand = ['µ', 's'] then some NANOS_PER_MICROSECOND
  else if cand = ['μ', 's'] then some NANOS_PER_MICROSECOND
  else if cand = ['u', 's'] then some NANOS_PER_MICROSECOND
  else if cand = ['m', 's'] then some NANOS_PER_MILLISECOND
  else if cand = ['s'] then some NANOS_PER_SECOND
  else if cand = ['m'] then some NANOS_PER_MINUTE
  else if cand = ['h'] then some NANOS_PER_HOUR
  else none

/-- The exact mathematical value of a fraction-digit list under a unit
scale of `10^j` nanoseconds: digit `i` (0-based, most significant first)
weighs `10^(j-1-i)`. -/
def fracVal : Nat → List Nat → Nat
  | _, [] => 0
  | j, d :: ds => d * 10 ^ (j - 1) + fracVal (j - 1) ds

/-- The first character of `l`, if any, falsifies `p`. -/
def headFails (p : Char → Bool) (l : List Char) : Prop :=
  ∀ c, l.head? = some c → p c = false

/-! ## Basic lemmas on saturating arithmetic -/

theorem satAdd_of_le {a b : Nat} (h : a + b ≤ u64Max) : satAdd a b = a + b := by
  simp [satAdd, Nat.min_eq_left h]

theorem satMul_of_le {a b : Nat} (h : a * b ≤ u64Max) : satMul a b = a * b := by
  simp [satMul, Nat.min_eq_left h]

theorem satAdd_zero_of_le {x : Nat} (h : x ≤ u64Max) : satAdd 0 x = x := by
  unfold satAdd
  omega

theorem satAdd_min_min (a b : Nat) :
    satAdd (min a u64Max) (min b u64Max) = min (a + b) u64Max := by
  rcases Nat.le_total a u64Max with ha | ha <;> rcases Nat.le_total b u64Max with hb | hb <;>
    simp [satAdd, Nat.min_eq_left, Nat.min_eq_right, ha, hb] <;> omega

theorem satMul_satAdd_min (a b n : Nat) :
    satAdd (satMul a b) n = min (a * b + n) u64Max := by
  rcases Nat.le_total (a * b) u64Max with h | h <;>
    simp [satMul, satAdd, Nat.min_eq_left, Nat.min_eq_right, h] <;> omega

/-! ## Basic lemmas on the combinators -/

theorem allConsuming_ok {α : Type} {p : List Char → IRes α} {input r : List Char} {v : α}
    (h : allConsuming p input = .ok (r, v)) : r = [] ∧ p input = .ok ([], v) := by
  unfold allConsuming at h
  split at h
  next x rest w heq =>
    split at h
    next hEmpty =>
      cases h
      cases r with
      | nil => exact ⟨rfl, heq⟩
      | cons c cs => simp at hEmpty
    next => cases h
  next x e heq => cases h

theorem allConsuming_of_ok_nil {α : Type} {p : List Char → IRes α} {input : List Char} {v : α}
    (h : p input = .ok ([], v)) : allConsuming p input = .ok ([], v) := by
  unfold allConsuming
  rw [h]
  rfl

/-! ## Decimal digit printing -/

theorem natDigitsF_spec :
    ∀ f n, n < f →
      natDigitsF f n ≠ [] ∧ (∀ d ∈ natDigitsF f n, d < 10) ∧
        (natDigitsF f n).foldl (fun a d => 10 * a + d) 0 = n := by
  intro f
  induction f with
  | zero => intro n hn; omega
  | succ f ih =>
    intro n hn
    by_cases h10 : n < 10
    · simp [natDigitsF, h10]
    · have hrec := ih (n / 10) (by omega)
      refine ⟨?_, ?_, ?_⟩
      · simp [natDigitsF, h10]
      · intro d hd
        rw [natDigitsF, if_neg h10] at hd
        rcases List.mem_append.1 hd with h | h
        · exact hrec.2.1 d h
        · simp at h; omega
      · rw [natDigitsF, if_neg h10, List.foldl_append, hrec.2.2]
        simp
        omega

theorem digitVal_digitChar {d : Nat} (h : d < 10) : digitVal (digitChar d) = d := by
  interval_cases d <;> rfl

theorem isDigit_digitChar {d : Nat} (h : d < 10) : (digitChar d).isDigit = true := by
  interval_cases d <;> decide

theorem natDigits_ne_nil (n : Nat) : natDigits n ≠ [] := by
  intro h
  exact (natDigitsF_spec (n + 1) n (by omega)).1 (List.map_eq_nil_iff.mp h)

theorem natDigits_all_digit (n : Nat) : ∀ c ∈ natDigits n, c.isDigit = true := by
  intro c hc
  rcases List.mem_map.1 hc with ⟨d, hd, rfl⟩
  exact isDigit_digitChar ((natDigitsF_spec (n + 1) n (by omega)).2.1 d hd)

theorem foldl_digits_map {l : List Nat} (h : ∀ d ∈ l, d < 10) :
    ∀ init, (l.map digitChar).foldl (fun a c => 10 * a + digitVal c) init =
      l.foldl (fun a d => 10 * a + d) init := by
  induction l with
  | nil => intro init; rfl
  | cons d ds ih =>
    intro init
    simp only [List.map_cons, List.foldl_cons]
    rw [digitVal_digitChar (h d (List.mem_cons_self d ds))]
    exact ih (fun x hx => h x (List.mem_cons_of_mem d hx)) _

theorem digitsToNat_natDigits (n : Nat) : digitsToNat (natDigits n) = n := by
  have hs := natDigitsF_spec (n + 1) n (by omega)
  unfold digitsToNat natDigits
  rw [foldl_digits_map hs.2.1]
  exact hs.2.2

/-! ## takeWhile / dropWhile over concatenations -/

theorem takeWhile_append_all {p : Char → Bool} :
    ∀ {xs ys : List Char}, (∀ c ∈ xs, p c = true) → headFails p ys →
      (xs ++ ys).takeWhile p = xs := by
  intro xs
  induction xs with
  | nil =>
    intro ys _ hys
    cases ys with
    | nil => rfl
    | cons c cs =>
      rw [List.nil_append, List.takeWhile_cons_of_neg (by simp [hys c rfl])]
  | cons x xs ih =>
    intro ys hall hys
    rw [List.cons_append,
      List.takeWhile_cons_of_pos (by simp [hall x (List.mem_cons_self x xs)]),
      ih (fun c hc => hall c (List.mem_cons_of_mem x hc)) hys]

theorem dropWhile_append_all {p : Char → Bool} :
    ∀ {xs ys : List Char}, (∀ c ∈ xs, p c = true) → headFails p ys →
      (xs ++ ys).dropWhile p = ys := by
  intro xs
  induction xs with
  | nil =>
    intro ys _ hys
    cases ys with
    | nil => rfl
    | cons c cs =>
      rw [List.nil_append, List.dropWhile_cons_of_neg (by simp [hys c rfl])]
  | cons x xs ih =>
    intro ys hall hys
    rw [List.cons_append,
      List.dropWhile_cons_of_pos (by simp [hall x (List.mem_cons_self x xs)])]
    exact ih (fun c hc => hall c (List.mem_cons_of_mem x hc)) hys

/-! ## Evaluation lemmas for the combinators -/

theorem charP_cons_self (c : Char) (rest : List Char) : charP c (c :: rest) = .ok (rest, c) := by
  simp [charP]

theorem charP_cons_ne {x c : Char} (h : x ≠ c) (rest : List Char) :
    charP c (x :: rest) = .error (.error .invalidDuration) := by
  simp [charP, h]

theorem altP_first_error {α : Type} {p q : List Char → IRes α} {input : List Char}
    {e : GoDurationParseError} (h : p input = .error (.error e)) :
    altP p q input = q input := by
  unfold altP
  rw [h]

theorem altP_first_ok {α : Type} {p q : List Char → IRes α} {input : List Char}
    {r : List Char × α} (h : p input = .ok r) : altP p q input = .ok r := by
  unfold altP
  rw [h]

theorem optP_of_error {α : Type} {p : List Char → IRes α} {input : List Char}
    {e : GoDurationParseError} (h : p input = .error (.error e)) :
    optP p input = .ok (input, none) := by
  unfold optP
  rw [h]

theorem optP_of_ok {α : Type} {p : List Char → IRes α} {input rest : List Char} {v : α}
    (h : p input = .ok (rest, v)) : optP p input = .ok (rest, some v) := by
  unfold optP
  rw [h]

theorem precededP_of_error {α β : Type} {p : List Char → IRes α} {q : List Char → IRes β}
    {input : List Char} {e : NomErr GoDurationParseError} (h : p input = .error e) :
    precededP p q input = .error e := by
  unfold precededP
  rw [h]

theorem precededP_of_ok {α β : Type} {p : List Char → IRes α} {q : List Char → IRes β}
    {input rest : List Char} {v : α} (h : p input = .ok (rest, v)) :
    precededP p q input = q rest := by
  unfold precededP
  rw [h]

theorem cutP_of_ok {α : Type} {p : List Char → IRes α} {input : List Char}
    {r : List Char × α} (h : p input = .ok r) : cutP p input = .ok r := by
  unfold cutP
  rw [h]

theorem cutP_of_error {α : Type} {p : List Char → IRes α} {input : List Char}
    {e : GoDurationParseError} (h : p input = .error (.error e)) :
    cutP p input = .error (.failure e) := by
  unfold cutP
  rw [h]

theorem digit1_append {ds rest : List Char} (h1 : ds ≠ []) (h2 : ∀ c ∈ ds, c.isDigit = true)
    (h3 : headFails Char.isDigit rest) : digit1 (ds ++ rest) = .ok (rest, ds) := by
  unfold digit1
  rw [takeWhile_append_all h2 h3, dropWhile_append_all h2 h3]
  simp [h1]

theorem digit0_append {fs rest : List Char} (hfs : ∀ c ∈ fs, c.isDigit = true)
    (hrest : headFails Char.isDigit rest) : digit0 (fs ++ rest) = .ok (rest, fs) := by
  unfold digit0
  rw [takeWhile_append_all hfs hrest, dropWhile_append_all hfs hrest]

theorem dpDotFirst_not_dot {input : List Char} (h : input.head? ≠ some '.') :
    dpDotFirst input = .error (.error .invalidDuration) := by
  cases input with
  | nil => rfl
  | cons c cs =>
    have hc : c ≠ '.' := fun hEq => h (by rw [hEq]; rfl)
    unfold dpDotFirst
    rw [precededP_of_error (charP_cons_ne hc cs)]

theorem dp_int {a : Nat} {rest : List Char} (ha : a ≤ u64Max)
    (hd : headFails Char.isDigit rest) (hdot : rest.head? ≠ some '.') :
    decimal_parts (natDigits a ++ rest) = .ok (rest, (a, none)) := by
  obtain ⟨c, cs, hcons⟩ : ∃ c cs, natDigits a = c :: cs := by
    cases h : natDigits a with
    | nil => exact absurd h (natDigits_ne_nil a)
    | cons c cs => exact ⟨c, cs, rfl⟩
  have hcd : c.isDigit = true :=
    natDigits_all_digit a c (by rw [hcons]; exact List.mem_cons_self c cs)
  have hhead : (natDigits a ++ rest).head? ≠ some '.' := by
    rw [hcons]
    intro hh
    simp only [List.cons_append, List.head?_cons, Option.some.injEq] at hh
    rw [hh] at hcd
    exact absurd hcd (by decide)
  have hopt : precededP (charP '.') digit0 rest = .error (.error .invalidDuration) := by
    cases rest with
    | nil => rfl
    | cons r rs =>
      have hr : r ≠ '.' := fun hEq => hdot (by rw [hEq]; rfl)
      rw [precededP_of_error (charP_cons_ne hr rs)]
  unfold decimal_parts
  rw [altP_first_error (dpDotFirst_not_dot hhead)]
  unfold dpIntFirst
  rw [digit1_append (natDigits_ne_nil a) (natDigits_all_digit a) hd]
  simp only [digitsToNat_natDigits]
  rw [if_pos ha, optP_of_error hopt]

theorem dp_frac {a : Nat} {fs rest : List Char} (ha : a ≤ u64Max)
    (hfs : ∀ c ∈ fs, c.isDigit = true) (hrest : headFails Char.isDigit rest) :
    decimal_parts (natDigits a ++ '.' :: (fs ++ rest)) = .ok (rest, (a, some fs)) := by
  obtain ⟨c, cs, hcons⟩ : ∃ c cs, natDigits a = c :: cs := by
    cases h : natDigits a with
    | nil => exact absurd h (natDigits_ne_nil a)
    | cons c cs => exact ⟨c, cs, rfl⟩
  have hcd : c.isDigit = true :=
    natDigits_all_digit a c (by rw [hcons]; exact List.mem_cons_self c cs)
  have hhead : (natDigits a ++ '.' :: (fs ++ rest)).head? ≠ some '.' := by
    rw [hcons]
    intro hh
    simp only [List.cons_append, List.head?_cons, Option.some.injEq] at hh
    rw [hh] at hcd
    exact absurd hcd (by decide)
  have hdotrest : headFails Char.isDigit ('.' :: (fs ++ rest)) := by
    intro x hx
    simp only [List.head?_cons, Option.some.injEq] at hx
    rw [← hx]
    decide
  unfold decimal_parts
  rw [altP_first_error (dpDotFirst_not_dot hhead)]
  unfold dpIntFirst
  rw [digit1_append (natDigits_ne_nil a) (natDigits_all_digit a) hdotrest]
  simp only [digitsToNat_natDigits]
  have hpre : precededP (charP '.') digit0 ('.' :: (fs ++ rest)) = .ok (rest, fs) := by
    rw [precededP_of_ok (charP_cons_self '.' (fs ++ rest))]
    exact digit0_append hfs hrest
  rw [if_pos ha, optP_of_ok hpre]

/-! ## The unit sub-parser -/

theorem matchTag_some_iff {t : List Char} :
    ∀ {input r : List Char}, matchTag t input = some r ↔ input = t ++ r := by
  induction t with
  | nil =>
    intro input r
    simp [matchTag]
  | cons x ts ih =>
    intro input r
    cases input with
    | nil => simp [matchTag]
    | cons y ys =>
      by_cases hxy : y = x
      · subst hxy
        simp [matchTag, ih]
      · simp only [matchTag, if_neg hxy]
        constructor
        · intro h
          cases h
        · intro h
          rw [List.cons_append] at h
          exact absurd (List.cons.inj h).1 hxy

theorem unitAlt_of_unitExact {cand : List Char} {scale : Nat}
    (h : unitExact cand = some scale) : allConsuming unitAlt cand = .ok ([], scale) := by
  unfold unitExact at h
  split_ifs at h with h1 h2 h3 h4 h5 h6 h7 h8 <;> (try cases h) <;>
    (try subst h1) <;> (try subst h2) <;> (try subst h3) <;> (try subst h4) <;>
    (try subst h5) <;> (try subst h6) <;> (try subst h7) <;> (try subst h8) <;> decide

theorem unit_append {us rest : List Char} {scale : Nat} (hus : unitExact us = some scale)
    (hrest : headFails (fun c => !stopChar c) rest) :
    unit (us ++ rest) = .ok (rest, scale) := by
  unfold unitExact at hus
  split_ifs at hus with h1 h2 h3 h4 h5 h6 h7 h8 <;> (try cases hus) <;>
    (try subst h1) <;> (try subst h2) <;> (try subst h3) <;> (try subst h4) <;>
    (try subst h5) <;> (try subst h6) <;> (try subst h7) <;> (try subst h8) <;>
    (simp only [unit]
     rw [takeWhile_append_all (by decide) hrest, dropWhile_append_all (by decide) hrest]
     rfl)

theorem altP_ok_cases {α : Type} {p q : List Char → IRes α} {input : List Char}
    {r : List Char × α} (h : altP p q input = .ok r) :
    p input = .ok r ∨ q input = .ok r := by
  unfold altP at h
  split at h
  next x r0 heq => cases h; exact Or.inl heq
  next x e heq => cases h
  next x e heq => exact Or.inr h

theorem valueP_ok {α β : Type} {v : α} {p : List Char → IRes β} {input rest : List Char}
    {w : α} (h : valueP v p input = .ok (rest, w)) :
    w = v ∧ ∃ x, p input = .ok (rest, x) := by
  unfold valueP at h
  split at h
  next x r0 v0 heq => cases h; exact ⟨rfl, v0, heq⟩
  next x e heq => cases h

theorem tagP_ok {t input rest w : List Char} (h : tagP t input = .ok (rest, w)) :
    input = t ++ rest ∧ w = t := by
  unfold tagP at h
  split at h
  next x r0 heq => cases h; exact ⟨matchTag_some_iff.mp heq, rfl⟩
  next => cases h

theorem charP_ok {c : Char} {input rest : List Char} {w : Char}
    (h : charP c input = .ok (rest, w)) : input = c :: rest ∧ w = c := by
  cases input with
  | nil => simp [charP] at h
  | cons x xs =>
    simp only [charP] at h
    by_cases hxc : x = c
    · rw [if_pos hxc] at h
      cases h
      exact ⟨by rw [hxc], rfl⟩
    · rw [if_neg hxc] at h
      cases h

theorem allConsuming_unitAlt_ok {cand r : List Char} {s : Nat}
    (h : allConsuming unitAlt cand = .ok (r, s)) : unitExact cand = some s := by
  obtain ⟨hr, h2⟩ := allConsuming_ok h
  unfold unitAlt at h2
  rcases altP_ok_cases h2 with h3 | h3
  · obtain ⟨hs, x, hx⟩ := valueP_ok h3
    obtain ⟨hcand, -⟩ := tagP_ok hx
    subst hs; rw [hcand]; rfl
  rcases altP_ok_cases h3 with h4 | h4
  · obtain ⟨hs, x, hx⟩ := valueP_ok h4
    obtain ⟨hcand, -⟩ := tagP_ok hx
    subst hs; rw [hcand]; rfl
  rcases altP_ok_cases h4 with h5 | h5
  · obtain ⟨hs, x, hx⟩ := valueP_ok h5
    obtain ⟨hcand, -⟩ := tagP_ok hx
    subst hs; rw [hcand]; rfl
  rcases altP_ok_cases h5 with h6 | h6
  · obtain ⟨hs, x, hx⟩ := valueP_ok h6
    obtain ⟨hcand, -⟩ := tagP_ok hx
    subst hs; rw [hcand]; rfl
  rcases altP_ok_cases h6 with h7 | h7
  · obtain ⟨hs, x, hx⟩ := valueP_ok h7
    obtain ⟨hcand, -⟩ := tagP_ok hx
    subst hs; rw [hcand]; rfl
  rcases altP_ok_cases h7 with h8 | h8
  · obtain ⟨hs, x, hx⟩ := valueP_ok h8
    obtain ⟨hcand, -⟩ := charP_ok hx
    subst hs; rw [hcand]; rfl
  rcases altP_ok_cases h8 with h9 | h9
  · obtain ⟨hs, x, hx⟩ := valueP_ok h9
    obtain ⟨hcand, -⟩ := charP_ok hx
    subst hs; rw [hcand]; rfl
  · obtain ⟨hs, x, hx⟩ := valueP_ok h9
    obtain ⟨hcand, -⟩ := charP_ok hx
    subst hs; rw [hcand]; rfl

theorem unit_eval (input : List Char) :
    unit input =
      if input.takeWhile (fun c => !stopChar c) = [] then .error (.error .missingUnit)
      else
        match unitExact (input.takeWhile (fun c => !stopChar c)) with
        | some scale => .ok (input.dropWhile (fun c => !stopChar c), scale)
        | none =>
          .error (.error (.unknownUnit (String.mk (input.takeWhile (fun c => !stopChar c))))) := by
  simp only [unit]
  by_cases hnil : input.takeWhile (fun c => !stopChar c) = []
  · rw [hnil]
    rfl
  · have hE : (input.takeWhile (fun c => !stopChar c)).isEmpty = false := by
      cases hc : input.takeWhile (fun c => !stopChar c) with
      | nil => exact absurd hc hnil
      | cons a as => rfl
    rw [hE, if_neg hnil]
    cases hm : unitExact (input.takeWhile (fun c => !stopChar c)) with
    | some s =>
      rw [unitAlt_of_unitExact hm]
      rfl
    | none =>
      cases hac : allConsuming unitAlt (input.takeWhile (fun c => !stopChar c)) with
      | error e => rfl
      | ok p =>
        obtain ⟨r, s⟩ := p
        rw [allConsuming_unitAlt_ok hac] at hm
        cases hm

/-! ## Segment items -/

theorem unitExact_cons {us : List Char} {scale : Nat} (hus : unitExact us = some scale) :
    ∃ c cs, us = c :: cs ∧ stopChar c = false := by
  unfold unitExact at hus
  split_ifs at hus with h1 h2 h3 h4 h5 h6 h7 h8 <;> (try cases hus) <;>
    (try subst h1) <;> (try subst h2) <;> (try subst h3) <;> (try subst h4) <;>
    (try subst h5) <;> (try subst h6) <;> (try subst h7) <;> (try subst h8) <;>
    exact ⟨_, _, rfl, by decide⟩

theorem unitExact_head_digit {us : List Char} {scale : Nat} (hus : unitExact us = some scale)
    {rest : List Char} : headFails Char.isDigit (us ++ rest) := by
  obtain ⟨c, cs, hcons, hstop⟩ := unitExact_cons hus
  intro x hx
  rw [hcons] at hx
  simp only [List.cons_append, List.head?_cons, Option.some.injEq] at hx
  subst hx
  simp only [stopChar, Bool.or_eq_false_iff] at hstop
  exact hstop.1

theorem unitExact_head_dot {us : List Char} {scale : Nat} (hus : unitExact us = some scale)
    {rest : List Char} : (us ++ rest).head? ≠ some '.' := by
  obtain ⟨c, cs, hcons, hstop⟩ := unitExact_cons hus
  rw [hcons]
  intro hh
  simp only [List.cons_append, List.head?_cons, Option.some.injEq] at hh
  subst hh
  simp [stopChar] at hstop

theorem segItemLib_int {a scale : Nat} {us rest : List Char}
    (ha : a ≤ u64Max) (hus : unitExact us = some scale)
    (hrest : headFails (fun c => !stopChar c) rest) :
    segItemLib (natDigits a ++ (us ++ rest)) = .ok (rest, min (a * scale) u64Max) := by
  simp only [segItemLib, dp_int ha (unitExact_head_digit hus) (unitExact_head_dot hus),
    cutP_of_ok (unit_append hus hrest), Option.map_none', Option.getD_none,
    satMul_satAdd_min, Nat.add_zero]

theorem segItemLib_frac {a scale : Nat} {fs us rest : List Char}
    (ha : a ≤ u64Max) (hfs : ∀ c ∈ fs, c.isDigit = true)
    (hus : unitExact us = some scale) (hrest : headFails (fun c => !stopChar c) rest) :
    segItemLib (natDigits a ++ '.' :: (fs ++ (us ++ rest))) =
      .ok (rest, min (a * scale + fracNanos scale fs) u64Max) := by
  simp only [segItemLib, dp_frac ha hfs (unitExact_head_digit hus),
    cutP_of_ok (unit_append hus hrest), Option.map_some', Option.getD_some,
    satMul_satAdd_min]

theorem segItemLib_nil : segItemLib [] = .error (.error .invalidDuration) := by decide

theorem length_lt_append {xs rest : List Char} (h : xs ≠ []) :
    rest.length < (xs ++ rest).length := by
  cases xs with
  | nil => exact absurd rfl h
  | cons c cs => simp [List.length_append]; omega

/-! ## fold_many1 stepping -/

theorem foldLoopF_fuel {g : Nat → Nat → Nat} {f : List Char → IRes Nat} :
    ∀ {f1 f2 acc : Nat} {input : List Char}, input.length < f1 → input.length < f2 →
      foldLoopF g f f1 acc input = foldLoopF g f f2 acc input := by
  intro f1
  induction f1 with
  | zero => intro f2 acc input h1 h2; omega
  | succ n ih =>
    intro f2 acc input h1 h2
    cases f2 with
    | zero => omega
    | succ m =>
      cases hfi : f input with
      | error err => cases err <;> simp [foldLoopF, hfi]
      | ok p =>
        obtain ⟨i, o⟩ := p
        simp only [foldLoopF, hfi]
        by_cases hlen : i.length < input.length
        · simp only [if_pos hlen]
          exact ih (by omega) (by omega)
        · simp only [if_neg hlen]

theorem foldLoopF_stop {g : Nat → Nat → Nat} {f : List Char → IRes Nat} {acc fuel : Nat}
    {input : List Char} {e : GoDurationParseError} (h : f input = .error (.error e)) :
    foldLoopF g f (fuel + 1) acc input = .ok (input, acc) := by
  simp [foldLoopF, h]

theorem foldLoopF_step {g : Nat → Nat → Nat} {f : List Char → IRes Nat} {acc fuel o : Nat}
    {input i : List Char} (h : f input = .ok (i, o)) (hlen : i.length < input.length)
    (hfuel : input.length < fuel + 1) :
    foldLoopF g f (fuel + 1) acc input = foldLoopF g f (i.length + 1) (g acc o) i := by
  simp only [foldLoopF, h, if_pos hlen]
  exact @foldLoopF_fuel g f fuel (i.length + 1) (g acc o) i (by omega) (by omega)

theorem foldMany1_first_error {g : Nat → Nat → Nat} {f : List Char → IRes Nat}
    {input : List Char} {e : GoDurationParseError} (h : f input = .error (.error e)) :
    foldMany1 g f input = .error (.error .invalidDuration) := by
  simp [foldMany1, h]

theorem foldMany1_first_fail {g : Nat → Nat → Nat} {f : List Char → IRes Nat}
    {input : List Char} {e : GoDurationParseError} (h : f input = .error (.failure e)) :
    foldMany1 g f input = .error (.failure e) := by
  simp [foldMany1, h]

theorem foldMany1_first_ok {g : Nat → Nat → Nat} {f : List Char → IRes Nat}
    {input i : List Char} {o : Nat} (h : f input = .ok (i, o)) :
    foldMany1 g f input = foldLoopF g f (i.length + 1) (g 0 o) i := by
  simp [foldMany1, h]

/-! ## Remaining-input behaviour of go_duration -/

theorem go_duration_ok_nil {input r : List Char} {d : GoDuration}
    (h : go_duration input = .ok (r, d)) : r = [] := by
  cases hs : sign input with
  | error e => simp only [go_duration, hs] at h; cases h
  | ok p =>
    obtain ⟨i1, sgn⟩ := p
    cases hac : allConsuming (foldMany1 satAdd segItemNom) i1 with
    | error e => simp only [go_duration, hs, hac] at h; cases h
    | ok q =>
      obtain ⟨i2, nanos⟩ := q
      have hnil : i2 = [] := (allConsuming_ok hac).1
      subst hnil
      simp only [go_duration, hs, hac] at h
      cases sgn with
      | true =>
        simp only [if_true] at h
        cases hit : i64TryFrom nanos with
        | some v => simp only [hit] at h; cases h; rfl
        | none => simp only [hit] at h; cases h
      | false =>
        simp only [Bool.false_eq_true, if_false] at h
        cases hcs : checkedSubUnsigned nanos with
        | some v => simp only [hcs] at h; cases h; rfl
        | none => simp only [hcs] at h; cases h

/-! ## Relation between the saturating and the exact accumulation -/

theorem segItemLib_exact_rel (input : List Char) :
    segItemLib input = (segItemExact input).map (fun p => (p.1, min p.2 u64Max)) := by
  unfold segItemLib segItemExact
  cases hdp : decimal_parts input with
  | error e => rfl
  | ok p =>
    obtain ⟨r1, int, frac⟩ := p
    cases hcu : cutP unit r1 with
    | error e => simp [hcu, Except.map]
    | ok q =>
      obtain ⟨r2, scale⟩ := q
      cases frac with
      | none => simp [hcu, Except.map, satMul_satAdd_min]
      | some fs => simp [hcu, Except.map, satMul_satAdd_min]

theorem foldLoopF_rel : ∀ {fuel acc : Nat} {input : List Char},
    foldLoopF satAdd segItemLib fuel (min acc u64Max) input =
      (foldLoopF Nat.add segItemExact fuel acc input).map (fun p => (p.1, min p.2 u64Max)) := by
  intro fuel
  induction fuel with
  | zero => intros; rfl
  | succ n ih =>
    intro acc input
    cases hse : segItemExact input with
    | error err =>
      have hsl : segItemLib input = .error err := by rw [segItemLib_exact_rel, hse]; rfl
      cases err <;> simp [foldLoopF, hse, hsl, Except.map]
    | ok p =>
      obtain ⟨i, o⟩ := p
      have hsl : segItemLib input = .ok (i, min o u64Max) := by
        rw [segItemLib_exact_rel, hse]; rfl
      simp only [foldLoopF, hse, hsl]
      by_cases hlen : i.length < input.length
      · simp only [if_pos hlen]
        rw [satAdd_min_min]
        exact ih
      · simp only [if_neg hlen]
        rfl

theorem foldMany1_rel (input : List Char) :
    foldMany1 satAdd segItemLib input =
      (foldMany1 Nat.add segItemExact input).map (fun p => (p.1, min p.2 u64Max)) := by
  cases hse : segItemExact input with
  | error err =>
    have hsl : segItemLib input = .error err := by rw [segItemLib_exact_rel, hse]; rfl
    cases err <;> simp [foldMany1, hse, hsl, Except.map]
  | ok p =>
    obtain ⟨i, o⟩ := p
    have hsl : segItemLib input = .ok (i, min o u64Max) := by
      rw [segItemLib_exact_rel, hse]; rfl
    simp only [foldMany1, hse, hsl]
    have h0 : satAdd 0 (min o u64Max) = min (Nat.add 0 o) u64Max := by
      simp only [satAdd, Nat.add_eq, Nat.zero_add]
      omega
    rw [h0]
    exact foldLoopF_rel

/-! # Claim theorems -/

/-- C2: parsing "9223372036854775807ns" succeeds with `i64::MAX` and
parsing "-9223372036854775808ns" succeeds with `i64::MIN`, while
"9223372036854775808ns" and "-9223372036854775809ns" fail with
InvalidDuration: a positive-signed total must fit within the signed
maximum, and a negative-signed total may have magnitude up to exactly
`2^63`. -/
theorem c2_boundaries :
    goDurationFromStr "9223372036854775807ns" = .ok ⟨9223372036854775807⟩ ∧
    goDurationFromStr "-9223372036854775808ns" = .ok ⟨-9223372036854775808⟩ ∧
    goDurationFromStr "9223372036854775808ns" = .error .invalidDuration ∧
    goDurationFromStr "-9223372036854775809ns" = .error .invalidDuration :=
  ⟨by decide, by decide, by decide, by decide⟩

/-- C3: the failure classification.  Empty input, a bare sign, or a
character that cannot start a segment give InvalidDuration; a number with
an empty unit candidate gives MissingUnit; a number with a non-empty
candidate not in the table gives UnknownUnit carrying the candidate as
written.  The final conjunct settles the lexing rule in general: `unit`
takes all characters up to the next digit, `.` or end of input as the
candidate and then matches it exactly against the table. -/
theorem c3_error_classification :
    goDurationFromStr "" = .error .invalidDuration ∧
    goDurationFromStr "-" = .error .invalidDuration ∧
    goDurationFromStr "+" = .error .invalidDuration ∧
    goDurationFromStr " " = .error .invalidDuration ∧
    goDurationFromStr "0" = .error .missingUnit ∧
    goDurationFromStr "0z" = .error (.unknownUnit "z") ∧
    (∀ input : List Char,
      unit input =
        if input.takeWhile (fun c => !stopChar c) = [] then .error (.error .missingUnit)
        else
          match unitExact (input.takeWhile (fun c => !stopChar c)) with
          | some scale => .ok (input.dropWhile (fun c => !stopChar c), scale)
          | none =>
            .error (.error (.unknownUnit (String.mk (input.takeWhile (fun c => !stopChar c)))))) :=
  ⟨by decide, by decide, by decide, by decide, by decide, by decide, unit_eval⟩

/-- C4: the formatter is total (a Lean function), selects units by
magnitude thresholds on the absolute value with the sign emitted
separately; zero formats as "0s"; the hour branch emits hour, minute and
decimal seconds even when the latter are zero; sub-microsecond positive
magnitudes format as a plain integer with "ns"; and the calibration pairs
hold. -/
theorem c4_formatter :
    (∀ n : Int, 0 < n → n < 1000 →
      fmtGoDuration ⟨n⟩ = String.mk (natDigits n.natAbs ++ ['n', 's'])) ∧
    fmtGoDuration ⟨0⟩ = "0s" ∧
    fmtGoDuration ⟨1⟩ = "1ns" ∧
    fmtGoDuration ⟨999⟩ = "999ns" ∧
    fmtGoDuration ⟨1000⟩ = "1µs" ∧
    fmtGoDuration ⟨1001⟩ = "1.001µs" ∧
    fmtGoDuration ⟨-9223372036854775808⟩ = "-2562047h47m16.854775808s" ∧
    fmtGoDuration ⟨9223372036854775807⟩ = "2562047h47m16.854775807s" ∧
    fmtGoDuration ⟨3600000000000⟩ = "1h0m0s" := by
  refine ⟨?_, by decide, by decide, by decide, by decide, by decide, by decide, by decide,
    by decide⟩
  intro n h0 h1
  have hm : n.natAbs < 1000 := by omega
  have hp : 0 < n.natAbs := by omega
  have hfmt : fmtGoDuration ⟨n⟩ = String.mk (fmtChars n) := rfl
  rw [hfmt]
  unfold fmtChars fmtMagChars
  rw [if_neg (by omega),
    if_neg (by unfold NANOS_PER_HOUR NANOS_PER_MINUTE NANOS_PER_SECOND; omega),
    if_neg (by unfold NANOS_PER_MINUTE NANOS_PER_SECOND; omega),
    if_neg (by unfold NANOS_PER_SECOND; omega),
    if_neg (by unfold NANOS_PER_MILLISECOND; omega),
    if_neg (by unfold NANOS_PER_MICROSECOND; omega),
    if_pos hp, List.nil_append]

/-- C4 witness: the general sub-microsecond conjunct applied at 7. -/
theorem c4_formatter_witness :
    fmtGoDuration ⟨7⟩ = String.mk (natDigits (7 : Int).natAbs ++ ['n', 's']) :=
  c4_formatter.1 7 (by decide) (by decide)

/-- C5: multi-segment accumulation sums unit-scaled segment values with
saturating multiplication and saturating addition, validating the signed
range once after all segments: "1ns9ns" parses to 10 ns, and whenever the
exact (unbounded) accumulated magnitude of the same segments exceeds the
signed range for the parsed sign, the parser returns InvalidDuration
rather than wrapping. -/
theorem c5_saturating_accumulation :
    goDurationFromStr "1ns9ns" = .ok ⟨10⟩ ∧
    (∀ (input i1 rest : List Char) (sgn : Bool) (t : Nat),
      sign input = .ok (i1, sgn) →
      allConsuming (foldMany1 Nat.add segItemExact) i1 = .ok (rest, t) →
      ((sgn = true ∧ i64MaxNat < t) ∨ (sgn = false ∧ 9223372036854775808 < t)) →
      parse_go_duration input = .error (.error .invalidDuration)) := by
  constructor
  · decide
  · intro input i1 rest sgn t hs hac hover
    obtain ⟨hrest, hfld⟩ := allConsuming_ok hac
    have hfldSat : foldMany1 satAdd segItemLib i1 = .ok ([], min t u64Max) := by
      rw [foldMany1_rel, hfld]
      rfl
    have hacSat : allConsuming (foldMany1 satAdd segItemLib) i1 = .ok ([], min t u64Max) :=
      allConsuming_of_ok_nil hfldSat
    simp only [parse_go_duration, hs, hacSat]
    rcases hover with ⟨hsgn, ht⟩ | ⟨hsgn, ht⟩
    · subst hsgn
      have hgt : ¬ (min t u64Max ≤ i64MaxNat) := by
        unfold i64MaxNat at *
        unfold u64Max
        omega
      rw [if_pos rfl, if_neg hgt]
    · subst hsgn
      have hgt : ¬ (((min t u64Max : Nat) : Int) ≤ 9223372036854775808) := by
        have h1 : 9223372036854775808 < min t u64Max := by
          unfold u64Max
          omega
        exact fun hc =>
          absurd (by exact_mod_cast hc : min t u64Max ≤ 9223372036854775808)
            (Nat.not_le.mpr h1)
      simp only [Bool.false_eq_true, if_false, checkedSubUnsigned, if_neg hgt]

/-- C5 witness: two 21-digit segments whose exact sum 18600000000000000000
exceeds both `i64::MAX` and (after saturation would exceed) the signed
range, so the parse fails with InvalidDuration. -/
theorem c5_saturating_accumulation_witness :
    parse_go_duration "9300000000000000000ns9300000000000000000ns".toList =
      .error (.error .invalidDuration) :=
  c5_saturating_accumulation.2 "9300000000000000000ns9300000000000000000ns".toList
    "9300000000000000000ns9300000000000000000ns".toList [] true 18600000000000000000
    (by decide) (by decide) (Or.inl ⟨rfl, by decide⟩)

/-- C7 counterexample: no input at all makes the lower-level entry point
`go_duration` succeed while leaving unconsumed input — its segment fold is
wrapped in `all_consuming`, so the claimed input with trailing content
cannot exist. -/
theorem c7_counterexample :
    ¬ ∃ (input rest : List Char) (d : GoDuration),
        go_duration input = .ok (rest, d) ∧ rest ≠ [] := by
  rintro ⟨input, rest, d, h, hne⟩
  exact hne (go_duration_ok_nil h)

/-- C7 (amended): the lower-level entry point `go_duration` exists and
reports remaining input in its result type, but it enforces full
consumption internally: whenever it succeeds, the reported remaining input
is empty. -/
theorem c7_amended (input rest : List Char) (d : GoDuration)
    (h : go_duration input = .ok (rest, d)) : rest = [] :=
  go_duration_ok_nil h

/-- C7 witness: the amended statement applied to the successful parse of
"1s". -/
theorem c7_amended_witness :
    go_duration "1s".toList = .ok ([], ⟨1000000000⟩) ∧ ([] : List Char) = [] :=
  ⟨by decide, c7_amended "1s".toList [] ⟨1000000000⟩ (by decide)⟩

/-- C8: string-mode serde.  Encoding emits the Display string; decoding
accepts a string token (through the parser) or a signed 64-bit integer
token as raw nanoseconds; an unsigned token above `i64::MAX` is rejected
with InvalidDuration. -/
theorem c8_serde_string_mode :
    (∀ n : Nat, i64MaxNat < n → deserializeGoDuration (.u64 n) = .error .invalidDuration) ∧
    (∀ d : GoDuration, serializeGoDuration d = .str (fmtGoDuration d)) ∧
    (∀ s : String, deserializeGoDuration (.str s) = goDurationFromStr s) ∧
    (∀ n : Int, deserializeGoDuration (.i64 n) = .ok ⟨n⟩) ∧
    deserializeGoDuration (.u64 18446744073709551615) = .error .invalidDuration ∧
    serializeGoDuration ⟨0⟩ = .str "0s" ∧
    deserializeGoDuration (.str "20ns") = .ok ⟨20⟩ ∧
    deserializeGoDuration (.u64 9223372036854775807) = .ok ⟨9223372036854775807⟩ := by
  refine ⟨?_, fun d => rfl, fun s => rfl, fun n => rfl, by decide, by decide, by decide,
    by decide⟩
  intro n hn
  have h : deserializeGoDuration (.u64 n) = visitU64 n := rfl
  rw [h]
  unfold visitU64
  rw [if_neg (Nat.not_le.mpr hn)]

/-- C8 witness: the rejection conjunct applied at `i64::MAX + 1`. -/
theorem c8_serde_string_mode_witness :
    deserializeGoDuration (.u64 9223372036854775808) = .error .invalidDuration :=
  c8_serde_string_mode.1 9223372036854775808 (by decide)

/-- C9: the duration value carries a total order consistent with the
underlying signed 64-bit nanosecond count: totality, antisymmetry and
transitivity hold. -/
theorem c9_total_order :
    (∀ a b : GoDuration, GoDuration.le a b ∨ GoDuration.le b a) ∧
    (∀ a b : GoDuration, GoDuration.le a b → GoDuration.le b a → a = b) ∧
    (∀ a b c : GoDuration, GoDuration.le a b → GoDuration.le b c → GoDuration.le a c) ∧
    (∀ a b : GoDuration, GoDuration.le a b ↔ a.nanoseconds ≤ b.nanoseconds) := by
  refine ⟨fun a b => le_total a.nanoseconds b.nanoseconds, ?_, ?_, fun a b => Iff.rfl⟩
  · intro a b hab hba
    cases a
    cases b
    simp only [GoDuration.mk.injEq]
    exact le_antisymm hab hba
  · intro a b c hab hbc
    exact le_trans hab hbc

/-- C9 witness: antisymmetry at ⟨5⟩,⟨5⟩ and transitivity at ⟨1⟩,⟨2⟩,⟨3⟩. -/
theorem c9_total_order_witness :
    (⟨5⟩ : GoDuration) = ⟨5⟩ ∧ GoDuration.le ⟨1⟩ ⟨3⟩ :=
  ⟨c9_total_order.2.1 ⟨5⟩ ⟨5⟩ (by decide) (by decide),
   c9_total_order.2.2.1 ⟨1⟩ ⟨2⟩ ⟨3⟩ (by decide) (by decide)⟩

/-- C10: the two parser entry points `parse_go_duration` (lib.rs) and
`go_duration` (nom.rs) return the same result on every input: the same
remaining input and value on success, the same error kind and payload
(including the Error/Failure wrapper) on failure. -/
theorem c10_parsers_equal : ∀ input : List Char, parse_go_duration input = go_duration input := by
  intro input
  have hseg : segItemLib = segItemNom := by
    funext inp
    unfold segItemLib segItemNom
    cases hdp : decimal_parts inp with
    | error e => rfl
    | ok p =>
      obtain ⟨r1, int, frac⟩ := p
      cases hcu : cutP unit r1 with
      | error e => simp [hcu]
      | ok q =>
        obtain ⟨r2, scale⟩ := q
        cases frac <;> simp [hcu]
  cases hs : sign input with
  | error e => simp only [parse_go_duration, go_duration, hs]
  | ok p =>
    obtain ⟨i1, sgn⟩ := p
    cases hac : allConsuming (foldMany1 satAdd segItemLib) i1 with
    | error e =>
      have hac2 : allConsuming (foldMany1 satAdd segItemNom) i1 = .error e := by
        rw [← hseg]; exact hac
      simp only [parse_go_duration, go_duration, hs, hac, hac2]
    | ok q =>
      obtain ⟨i2, nanos⟩ := q
      have hac2 : allConsuming (foldMany1 satAdd segItemNom) i1 = .ok (i2, nanos) := by
        rw [← hseg]; exact hac
      simp only [parse_go_duration, go_duration, hs, hac, hac2]
      cases sgn with
      | false => rfl
      | true =>
        simp only [if_true]
        unfold i64TryFrom
        by_cases hn : nanos ≤ i64MaxNat <;> simp [hn]

/-! ## Properties of the f64 model -/

theorem natLog2F_spec : ∀ f n, 0 < n → n ≤ f →
    2 ^ natLog2F f n ≤ n ∧ n < 2 ^ (natLog2F f n + 1) := by
  intro f
  induction f with
  | zero => intro n h1 h2; omega
  | succ f ih =>
    intro n h1 h2
    by_cases hn : n < 2
    · simp only [natLog2F, if_pos hn]
      omega
    · have hrec := ih (n / 2) (by omega) (by omega)
      simp only [natLog2F, if_neg hn]
      constructor
      · have h3 := hrec.1
        have h4 : 2 ^ (natLog2F f (n / 2) + 1) = 2 * 2 ^ natLog2F f (n / 2) := by ring
        omega
      · have h3 := hrec.2
        have h4 : 2 ^ (natLog2F f (n / 2) + 1 + 1) = 2 * 2 ^ (natLog2F f (n / 2) + 1) := by
          ring
        omega

theorem natLog2_spec {n : Nat} (h : 0 < n) :
    2 ^ natLog2 n ≤ n ∧ n < 2 ^ (natLog2 n + 1) :=
  natLog2F_spec n n h (le_refl n)

theorem pow_cast_q (k : Nat) : ((2 ^ k : Nat) : ℚ) = (2 : ℚ) ^ (k : ℤ) := by
  push_cast
  rw [zpow_natCast]

theorem qlog2_bounds_aux {A B : ℚ} {la lb : ℤ} (hB : 0 < B)
    (hA1 : (2 : ℚ) ^ la ≤ A) (hA2 : A < (2 : ℚ) ^ (la + 1))
    (hB1 : (2 : ℚ) ^ lb ≤ B) (hB2 : B < (2 : ℚ) ^ (lb + 1)) :
    (2 : ℚ) ^ (la - lb - 1) < A / B ∧ A / B < (2 : ℚ) ^ (la - lb + 1) := by
  have hne : (2 : ℚ) ≠ 0 := by norm_num
  constructor
  · rw [lt_div_iff hB]
    calc (2 : ℚ) ^ (la - lb - 1) * B
        < (2 : ℚ) ^ (la - lb - 1) * (2 : ℚ) ^ (lb + 1) :=
          mul_lt_mul_of_pos_left hB2 (by positivity)
      _ = (2 : ℚ) ^ la := by
          rw [← zpow_add₀ hne]
          congr 1
          omega
      _ ≤ A := hA1
  · rw [div_lt_iff hB]
    calc A < (2 : ℚ) ^ (la + 1) := hA2
      _ = (2 : ℚ) ^ (la - lb + 1) * (2 : ℚ) ^ lb := by
          rw [← zpow_add₀ hne]
          congr 1
          omega
      _ ≤ (2 : ℚ) ^ (la - lb + 1) * B :=
          mul_le_mul_of_nonneg_left hB1 (by positivity)

theorem qlog2_spec {q : ℚ} (hq : 0 < q) :
    (2 : ℚ) ^ qlog2 q ≤ q ∧ q < (2 : ℚ) ^ (qlog2 q + 1) := by
  have hnum : 0 < q.num := Rat.num_pos.mpr hq
  have ha0 : 0 < q.num.toNat := by omega
  have hb0 : 0 < q.den := q.pos
  have hA : ((q.num.toNat : ℚ)) = ((q.num : ℤ) : ℚ) := by
    exact_mod_cast congrArg (fun z : ℤ => (z : ℚ)) (Int.toNat_of_nonneg hnum.le)
  have hq_eq : q = (q.num.toNat : ℚ) / (q.den : ℚ) := by
    rw [hA]
    exact (Rat.num_div_den q).symm
  obtain ⟨hla1, hla2⟩ := natLog2_spec ha0
  obtain ⟨hlb1, hlb2⟩ := natLog2_spec hb0
  have hne : (2 : ℚ) ≠ 0 := by norm_num
  have hA1 : (2 : ℚ) ^ ((natLog2 q.num.toNat : ℤ)) ≤ (q.num.toNat : ℚ) := by
    rw [← pow_cast_q]
    exact_mod_cast hla1
  have hA2 : ((q.num.toNat : ℚ)) < (2 : ℚ) ^ ((natLog2 q.num.toNat : ℤ) + 1) := by
    have h : ((natLog2 q.num.toNat : ℤ) + 1) = ((natLog2 q.num.toNat + 1 : Nat) : ℤ) := by
      push_cast; ring
    rw [h, ← pow_cast_q]
    exact_mod_cast hla2
  have hB1 : (2 : ℚ) ^ ((natLog2 q.den : ℤ)) ≤ (q.den : ℚ) := by
    rw [← pow_cast_q]
    exact_mod_cast hlb1
  have hB2 : ((q.den : ℚ)) < (2 : ℚ) ^ ((natLog2 q.den : ℤ) + 1) := by
    have h : ((natLog2 q.den : ℤ) + 1) = ((natLog2 q.den + 1 : Nat) : ℤ) := by
      push_cast; ring
    rw [h, ← pow_cast_q]
    exact_mod_cast hlb2
  have hBpos : (0 : ℚ) < (q.den : ℚ) := by exact_mod_cast hb0
  have hq_eq' : (q.num.toNat : ℚ) / (q.den : ℚ) = q := by
    rw [hA]
    exact Rat.num_div_den q
  obtain ⟨hlow0, hupp0⟩ := qlog2_bounds_aux hBpos hA1 hA2 hB1 hB2
  have hlow : (2 : ℚ) ^ ((natLog2 q.num.toNat : ℤ) - (natLog2 q.den : ℤ) - 1) < q := by
    conv_rhs => rw [← hq_eq']
    exact hlow0
  have hupp : q < (2 : ℚ) ^ ((natLog2 q.num.toNat : ℤ) - (natLog2 q.den : ℤ) + 1) := by
    conv_lhs => rw [← hq_eq']
    exact hupp0
  have hdef : qlog2 q =
      if q < (2 : ℚ) ^ ((natLog2 q.num.toNat : ℤ) - (natLog2 q.den : ℤ))
      then (natLog2 q.num.toNat : ℤ) - (natLog2 q.den : ℤ) - 1
      else (natLog2 q.num.toNat : ℤ) - (natLog2 q.den : ℤ) := rfl
  rw [hdef]
  split_ifs with hcase
  · refine ⟨hlow.le, ?_⟩
    have h : (natLog2 q.num.toNat : ℤ) - (natLog2 q.den : ℤ) - 1 + 1 =
        (natLog2 q.num.toNat : ℤ) - (natLog2 q.den : ℤ) := by omega
    rw [h]
    exact hcase
  · exact ⟨not_lt.mp hcase, hupp⟩

theorem qlog2_unique {q : ℚ} {j : ℤ} (hq : 0 < q) (h1 : (2 : ℚ) ^ j ≤ q)
    (h2 : q < (2 : ℚ) ^ (j + 1)) : qlog2 q = j := by
  obtain ⟨g1, g2⟩ := qlog2_spec hq
  by_contra hne
  have hone : (1 : ℚ) ≤ 2 := by norm_num
  rcases lt_or_gt_of_ne hne with hlt | hgt
  · have hstep : (2 : ℚ) ^ (qlog2 q + 1) ≤ (2 : ℚ) ^ j :=
      zpow_le_zpow_right₀ hone (by omega)
    linarith
  · have hstep : (2 : ℚ) ^ (j + 1) ≤ (2 : ℚ) ^ (qlog2 q) :=
      zpow_le_zpow_right₀ hone (by omega)
    linarith

theorem rne_intCast (z : ℤ) : rne ((z : ℤ) : ℚ) = z := by
  unfold rne
  rw [Int.floor_intCast]
  norm_num

theorem roundF64_rep {z e : ℤ} (hz : z.natAbs ≤ 2 ^ 53) (he : (-1074 : ℤ) ≤ e) :
    roundF64 ((z : ℚ) * (2 : ℚ) ^ e) = (z : ℚ) * (2 : ℚ) ^ e := by
  rcases eq_or_ne z 0 with rfl | hz0
  · simp [roundF64]
  · have h2ne : (2 : ℚ) ≠ 0 := by norm_num
    have h2pos : (0 : ℚ) < 2 := by norm_num
    have hq0 : (z : ℚ) * (2 : ℚ) ^ e ≠ 0 :=
      mul_ne_zero (by exact_mod_cast hz0) (zpow_ne_zero e h2ne)
    have hNa : 0 < z.natAbs := by omega
    obtain ⟨hl1, hl2⟩ := natLog2_spec hNa
    have hla53 : natLog2 z.natAbs ≤ 53 := by
      by_contra hgt
      have hpow : 2 ^ 54 ≤ 2 ^ natLog2 z.natAbs := Nat.pow_le_pow_right (by norm_num) (by omega)
      have h54 : (2 : Nat) ^ 54 = 18014398509481984 := by norm_num
      have h53 : (2 : Nat) ^ 53 = 9007199254740992 := by norm_num
      omega
    have habs : |(z : ℚ) * (2 : ℚ) ^ e| = ((z.natAbs : ℚ)) * (2 : ℚ) ^ e := by
      rw [abs_mul, abs_of_pos (zpow_pos h2pos e), Int.cast_natAbs, Int.cast_abs]
    have hq2 : qlog2 |(z : ℚ) * (2 : ℚ) ^ e| = (natLog2 z.natAbs : ℤ) + e := by
      rw [habs]
      apply qlog2_unique
      · exact mul_pos (by exact_mod_cast hNa) (zpow_pos h2pos e)
      · rw [zpow_add₀ h2ne]
        apply mul_le_mul_of_nonneg_right _ (le_of_lt (zpow_pos h2pos e))
        rw [← pow_cast_q]
        exact_mod_cast hl1
      · rw [show (natLog2 z.natAbs : ℤ) + e + 1 = ((natLog2 z.natAbs : ℤ) + 1) + e by ring,
          zpow_add₀ h2ne]
        apply mul_lt_mul_of_pos_right _ (zpow_pos h2pos e)
        rw [show ((natLog2 z.natAbs : ℤ) + 1) = ((natLog2 z.natAbs + 1 : Nat) : ℤ) by
            push_cast
            try ring,
          ← pow_cast_q]
        exact_mod_cast hl2
    simp only [roundF64, if_neg hq0, hq2]
    obtain ⟨w, hw⟩ : ∃ w : ℤ,
        ((z : ℚ) * (2 : ℚ) ^ e) / (2 : ℚ) ^ (max ((natLog2 z.natAbs : ℤ) + e - 52) (-1074)) =
          (w : ℚ) := by
      by_cases hcase : natLog2 z.natAbs = 53 ∧ (-1074 : ℤ) ≤ (natLog2 z.natAbs : ℤ) + e - 52
      · obtain ⟨h53, hge⟩ := hcase
        have hEeq : max ((natLog2 z.natAbs : ℤ) + e - 52) (-1074) = e + 1 := by
          rw [h53]
          push_cast
          omega
        have hzabs : z.natAbs = 2 ^ 53 := by
          have hge2 : 2 ^ 53 ≤ z.natAbs := by rw [← h53]; exact hl1
          omega
        have hdvd : (2 : ℤ) ∣ z := by
          rcases Int.natAbs_eq z with hzz | hzz
          · rw [hzz, hzabs]; exact ⟨2 ^ 52, by norm_num⟩
          · rw [hzz, hzabs]; exact ⟨-(2 ^ 52), by norm_num⟩
        obtain ⟨w, hw2⟩ := hdvd
        refine ⟨w, ?_⟩
        rw [hEeq, hw2]
        have hcast : ((2 * w : ℤ) : ℚ) = 2 * (w : ℚ) := by push_cast; ring
        rw [hcast, zpow_add₀ h2ne, zpow_one,
          div_eq_iff (mul_ne_zero (zpow_ne_zero _ h2ne) h2ne)]
        ring
      · have hEe : max ((natLog2 z.natAbs : ℤ) + e - 52) (-1074) ≤ e := by
          push_neg at hcase
          rcases Nat.lt_or_ge (natLog2 z.natAbs) 53 with hlt | hge53
          · have : (natLog2 z.natAbs : ℤ) ≤ 52 := by exact_mod_cast Nat.le_of_lt_succ hlt
            omega
          · have h53 : natLog2 z.natAbs = 53 := le_antisymm hla53 hge53
            have := hcase h53
            omega
        refine ⟨z * 2 ^ (e - max ((natLog2 z.natAbs : ℤ) + e - 52) (-1074)).toNat, ?_⟩
        have htn : (((e - max ((natLog2 z.natAbs : ℤ) + e - 52) (-1074)).toNat : ℕ) : ℤ) =
            e - max ((natLog2 z.natAbs : ℤ) + e - 52) (-1074) :=
          Int.toNat_of_nonneg (by omega)
        rw [div_eq_iff (zpow_ne_zero _ h2ne)]
        push_cast
        rw [mul_assoc]
        congr 1
        rw [← zpow_natCast (2 : ℚ) (e - max ((natLog2 z.natAbs : ℤ) + e - 52) (-1074)).toNat,
          htn, ← zpow_add₀ h2ne]
        congr 1
        omega
    rw [hw, rne_intCast, ← hw,
      div_mul_cancel₀ _ (zpow_ne_zero (max ((natLog2 z.natAbs : ℤ) + e - 52) (-1074)) h2ne)]

theorem roundF64_intCast {z : ℤ} (hz : z.natAbs ≤ 2 ^ 53) : roundF64 ((z : ℤ) : ℚ) = (z : ℚ) := by
  have h := roundF64_rep hz (by norm_num : (-1074 : ℤ) ≤ 0)
  simpa using h

theorem roundF64_natCast {n : Nat} (hn : n ≤ 2 ^ 53) : roundF64 ((n : ℕ) : ℚ) = (n : ℚ) := by
  have h := roundF64_intCast (z := (n : ℤ)) (by simpa using hn)
  simpa using h

theorem fracLoop_exact : ∀ (ds : List Nat) (j m : Nat), ds.length ≤ j → (∀ d ∈ ds, d < 10) →
    m + 10 ^ j ≤ 2 ^ 53 →
    fracLoop ((m : ℕ) : ℚ) (((10 ^ j : ℕ) : ℕ) : ℚ) ds = ((m + fracVal j ds : ℕ) : ℚ) := by
  intro ds
  induction ds with
  | nil =>
    intro j m _ _ _
    simp [fracLoop, fracVal]
  | cons d ds ih =>
    intro j m hlen hd hb
    cases j with
    | zero => simp at hlen
    | succ j' =>
      have hd10 : d < 10 := hd d (List.mem_cons_self d ds)
      have hp10 : (10 : ℕ) ^ (j' + 1) = 10 ^ j' * 10 := pow_succ 10 j'
      have hmul : 10 ^ j' * d ≤ 10 ^ j' * 9 := Nat.mul_le_mul_left _ (by omega)
      have h1 : (10 : ℕ) ^ j' ≤ 2 ^ 53 := by omega
      have hdiv : (((10 : ℕ) ^ (j' + 1) : ℕ) : ℚ) / 10 = (((10 : ℕ) ^ j' : ℕ) : ℚ) := by
        push_cast
        rw [pow_succ]
        field_simp
      have hs2 : roundF64 ((((10 : ℕ) ^ (j' + 1) : ℕ) : ℚ) / 10) = (((10 : ℕ) ^ j' : ℕ) : ℚ) := by
        rw [hdiv]
        exact roundF64_natCast h1
      have hprodval : (((10 : ℕ) ^ j' : ℕ) : ℚ) * (d : ℚ) = ((10 ^ j' * d : ℕ) : ℚ) := by
        push_cast
        ring
      have hprod : roundF64 ((((10 : ℕ) ^ j' : ℕ) : ℚ) * (d : ℚ)) = ((10 ^ j' * d : ℕ) : ℚ) := by
        rw [hprodval]
        exact roundF64_natCast (by omega)
      have hsum : ((m : ℕ) : ℚ) + ((10 ^ j' * d : ℕ) : ℚ) = ((m + 10 ^ j' * d : ℕ) : ℚ) := by
        push_cast
        ring
      have htot : roundF64 (((m : ℕ) : ℚ) + ((10 ^ j' * d : ℕ) : ℚ)) =
          ((m + 10 ^ j' * d : ℕ) : ℚ) := by
        rw [hsum]
        exact roundF64_natCast (by omega)
      simp only [fracLoop, hs2, hprod, htot]
      rw [ih j' (m + 10 ^ j' * d) (by simpa using hlen)
        (fun x hx => hd x (List.mem_cons_of_mem d hx)) (by omega)]
      have hfv : fracVal (j' + 1) (d :: ds) = d * 10 ^ j' + fracVal j' ds := by
        simp [fracVal]
      rw [hfv]
      push_cast
      ring

theorem fracVal_lt : ∀ (ds : List Nat) (j : Nat), (∀ d ∈ ds, d < 10) → ds.length ≤ j →
    fracVal j ds < 10 ^ j := by
  intro ds
  induction ds with
  | nil =>
    intro j _ _
    simp only [fracVal]
    positivity
  | cons d ds ih =>
    intro j hd hlen
    cases j with
    | zero => simp at hlen
    | succ j' =>
      have h1 := ih j' (fun x hx => hd x (List.mem_cons_of_mem d hx)) (by simpa using hlen)
      have hd10 : d < 10 := hd d (List.mem_cons_self d ds)
      have hfv : fracVal (j' + 1) (d :: ds) = d * 10 ^ j' + fracVal j' ds := by simp [fracVal]
      have hmul : d * 10 ^ j' ≤ 9 * 10 ^ j' := Nat.mul_le_mul_right _ (by omega)
      have hp : (10 : ℕ) ^ (j' + 1) = 10 * 10 ^ j' := by rw [pow_succ]; ring
      omega

theorem fracNanos_exact {k : Nat} {ds : List Nat} (hlen : ds.length ≤ k)
    (hd : ∀ d ∈ ds, d < 10) (hk : 10 ^ k ≤ 2 ^ 53) :
    fracNanos (10 ^ k) (ds.map digitChar) = fracVal k ds := by
  have hmap : (ds.map digitChar).map digitVal = ds := by
    rw [List.map_map]
    calc ds.map (digitVal ∘ digitChar) = ds.map id :=
          List.map_congr_left fun x hx => digitVal_digitChar (hd x hx)
      _ = ds := List.map_id ds
  unfold fracNanos
  rw [hmap]
  have h := fracLoop_exact ds k 0 hlen hd (by omega)
  rw [Nat.cast_zero] at h
  rw [h]
  have hlt := fracVal_lt ds k hd hlen
  simp only [Nat.zero_add, Int.floor_natCast, Int.toNat_natCast]
  exact Nat.min_eq_left (by unfold u64Max; omega)

/-! ## The padded fraction digits of the formatter -/

theorem padDigits_length : ∀ (k fp : Nat), (padDigits k fp).length = k := by
  intro k
  induction k with
  | zero => intro fp; rfl
  | succ k ih => intro fp; simp [padDigits, ih]

theorem padDigits_lt : ∀ (k fp : Nat), fp < 10 ^ k → ∀ d ∈ padDigits k fp, d < 10 := by
  intro k
  induction k with
  | zero => intro fp _ d hd; simp [padDigits] at hd
  | succ k ih =>
    intro fp hfp d hd
    simp only [padDigits, List.mem_cons] at hd
    rcases hd with rfl | hd
    · have hp : (10 : ℕ) ^ (k + 1) = 10 ^ k * 10 := pow_succ 10 k
      have h1 : fp / 10 ^ k < 10 := by
        apply Nat.div_lt_of_lt_mul
        omega
      exact h1
    · exact ih (fp % 10 ^ k) (Nat.mod_lt _ (by positivity)) d hd

theorem fracVal_padDigits : ∀ (k fp : Nat), fp < 10 ^ k → fracVal k (padDigits k fp) = fp := by
  intro k
  induction k with
  | zero =>
    intro fp hfp
    simp only [padDigits, fracVal]
    omega
  | succ k ih =>
    intro fp hfp
    have hmod : fp % 10 ^ k < 10 ^ k := Nat.mod_lt _ (by positivity)
    simp only [padDigits, fracVal, Nat.succ_sub_one]
    rw [ih (fp % 10 ^ k) hmod]
    have h1 := Nat.div_add_mod fp (10 ^ k)
    have h2 : fp / 10 ^ k * 10 ^ k = 10 ^ k * (fp / 10 ^ k) := Nat.mul_comm _ _
    omega

theorem fracVal_replicate_zero : ∀ (t j : Nat), fracVal j (List.replicate t 0) = 0 := by
  intro t
  induction t with
  | zero => intro j; rfl
  | succ t ih => intro j; simp [List.replicate, fracVal, ih]

theorem fracVal_append_zeros : ∀ (l : List Nat) (j t : Nat),
    fracVal j (l ++ List.replicate t 0) = fracVal j l := by
  intro l
  induction l with
  | nil => intro j t; simp [fracVal, fracVal_replicate_zero]
  | cons d ds ih => intro j t; simp [fracVal, ih]

theorem stripZeros_spec (l : List Nat) :
    ∃ t, l = stripZeros l ++ List.replicate t 0 := by
  refine ⟨(l.reverse.takeWhile (fun d => d == 0)).length, ?_⟩
  have hsplit : l.reverse.takeWhile (fun d => d == 0) ++ l.reverse.dropWhile (fun d => d == 0) =
      l.reverse := List.takeWhile_append_dropWhile _ _
  have hrep : l.reverse.takeWhile (fun d => d == 0) =
      List.replicate (l.reverse.takeWhile (fun d => d == 0)).length 0 := by
    apply List.eq_replicate_of_mem
    intro b hb
    have := List.mem_takeWhile_imp hb
    simpa using this
  calc l = l.reverse.reverse := (List.reverse_reverse l).symm
    _ = (l.reverse.takeWhile (fun d => d == 0) ++ l.reverse.dropWhile (fun d => d == 0)).reverse := by
        rw [hsplit]
    _ = stripZeros l ++ List.replicate (l.reverse.takeWhile (fun d => d == 0)).length 0 := by
        rw [List.reverse_append]
        unfold stripZeros
        congr 1
        rw [hrep, List.reverse_replicate]
        simp

theorem stripZeros_sublist (l : List Nat) : (stripZeros l).Sublist l := by
  obtain ⟨t, ht⟩ := stripZeros_spec l
  conv_rhs => rw [ht]
  exact List.sublist_append_left _ _

theorem fracVal_stripZeros {k fp : Nat} (hfp : fp < 10 ^ k) :
    fracVal k (stripZeros (padDigits k fp)) = fp := by
  obtain ⟨t, ht⟩ := stripZeros_spec (padDigits k fp)
  have := fracVal_padDigits k fp hfp
  rw [ht, fracVal_append_zeros] at this
  exact this

theorem stripZeros_ne_nil {k fp : Nat} (hfp : fp < 10 ^ k) (h0 : fp ≠ 0) :
    stripZeros (padDigits k fp) ≠ [] := by
  intro hnil
  have := fracVal_stripZeros hfp
  rw [hnil] at this
  simp [fracVal] at this
  exact h0 this.symm

theorem stripZeros_lt {k fp : Nat} (hfp : fp < 10 ^ k) :
    ∀ d ∈ stripZeros (padDigits k fp), d < 10 :=
  fun d hd => padDigits_lt k fp hfp d ((stripZeros_sublist _).mem hd)

theorem stripZeros_length_le {k fp : Nat} : (stripZeros (padDigits k fp)).length ≤ k := by
  have h := (stripZeros_sublist (padDigits k fp)).length_le
  rw [padDigits_length] at h
  exact h

/-! ## Parsing the formatter output: one segment -/

theorem headFails_nil {p : Char → Bool} : headFails p [] := by
  intro c hc
  cases hc

theorem head_digit_headFails {xs rest : List Char} (hne : xs ≠ [])
    (hdig : ∀ c ∈ xs, c.isDigit = true) :
    headFails (fun c => !stopChar c) (xs ++ rest) := by
  intro c hc
  cases xs with
  | nil => exact absurd rfl hne
  | cons x xt =>
    simp only [List.cons_append, List.head?_cons, Option.some.injEq] at hc
    subst hc
    have hx := hdig x (List.mem_cons_self x xt)
    simp [stopChar, hx]

theorem fmtDecChars_headFails {n k : Nat} {rest : List Char} :
    headFails (fun c => !stopChar c) (fmtDecChars n k ++ rest) := by
  unfold fmtDecChars
  rw [List.append_assoc]
  exact head_digit_headFails (natDigits_ne_nil _) (natDigits_all_digit _)

theorem segItemLib_fmtDec {n k : Nat} {us rest : List Char}
    (hn : n ≤ u64Max) (hk : 10 ^ k ≤ 2 ^ 53)
    (hus : unitExact us = some (10 ^ k))
    (hrest : headFails (fun c => !stopChar c) rest) :
    segItemLib (fmtDecChars n k ++ (us ++ rest)) = .ok (rest, n) := by
  have hdivle : n / 10 ^ k ≤ u64Max := le_trans (Nat.div_le_self n (10 ^ k)) hn
  by_cases hfp : n % 10 ^ k = 0
  · have hfd : fmtDecChars n k = natDigits (n / 10 ^ k) := by
      simp [fmtDecChars, hfp]
    rw [hfd, segItemLib_int hdivle hus hrest]
    have hmul : n / 10 ^ k * 10 ^ k = n := Nat.div_mul_cancel (Nat.dvd_of_mod_eq_zero hfp)
    rw [hmul, Nat.min_eq_left hn]
  · have hmod : n % 10 ^ k < 10 ^ k := Nat.mod_lt _ (by positivity)
    have hfd : fmtDecChars n k = natDigits (n / 10 ^ k) ++
        '.' :: ((stripZeros (padDigits k (n % 10 ^ k))).map digitChar) := by
      simp [fmtDecChars, hfp]
    have hfs : ∀ c ∈ (stripZeros (padDigits k (n % 10 ^ k))).map digitChar, c.isDigit = true := by
      intro c hc
      rcases List.mem_map.1 hc with ⟨d, hd, rfl⟩
      exact isDigit_digitChar (stripZeros_lt hmod d hd)
    rw [hfd, List.append_assoc, List.cons_append,
      segItemLib_frac hdivle hfs hus hrest,
      fracNanos_exact stripZeros_length_le (stripZeros_lt hmod) hk,
      fracVal_stripZeros hmod]
    have hsplit : n / 10 ^ k * 10 ^ k + n % 10 ^ k = n := Nat.div_add_mod' n (10 ^ k)
    rw [hsplit, Nat.min_eq_left hn]

/-! ## Folding one, two or three segments -/

theorem foldMany1_single {input : List Char} {o : Nat}
    (h : segItemLib input = .ok ([], o)) :
    foldMany1 satAdd segItemLib input = .ok ([], satAdd 0 o) := by
  rw [foldMany1_first_ok h]
  exact foldLoopF_stop segItemLib_nil

theorem foldMany1_double {input mid : List Char} {o1 o2 : Nat}
    (h1 : segItemLib input = .ok (mid, o1)) (hlen1 : mid.length < input.length)
    (h2 : segItemLib mid = .ok ([], o2)) :
    foldMany1 satAdd segItemLib input = .ok ([], satAdd (satAdd 0 o1) o2) := by
  have hmidne : mid ≠ [] := by
    intro hh
    rw [hh, segItemLib_nil] at h2
    cases h2
  have hmlen : ([] : List Char).length < mid.length := by
    cases mid with
    | nil => exact absurd rfl hmidne
    | cons c cs => simp
  rw [foldMany1_first_ok h1, foldLoopF_step h2 hmlen (by omega)]
  exact foldLoopF_stop segItemLib_nil

theorem foldMany1_triple {input mid1 mid2 : List Char} {o1 o2 o3 : Nat}
    (h1 : segItemLib input = .ok (mid1, o1)) (hlen1 : mid1.length < input.length)
    (h2 : segItemLib mid1 = .ok (mid2, o2)) (hlen2 : mid2.length < mid1.length)
    (h3 : segItemLib mid2 = .ok ([], o3)) :
    foldMany1 satAdd segItemLib input = .ok ([], satAdd (satAdd (satAdd 0 o1) o2) o3) := by
  have hmidne : mid2 ≠ [] := by
    intro hh
    rw [hh, segItemLib_nil] at h3
    cases h3
  have hmlen : ([] : List Char).length < mid2.length := by
    cases mid2 with
    | nil => exact absurd rfl hmidne
    | cons c cs => simp
  rw [foldMany1_first_ok h1, foldLoopF_step h2 hlen2 (by omega),
    foldLoopF_step h3 hmlen (by omega)]
  exact foldLoopF_stop segItemLib_nil

/-! ## Parsing each formatter branch -/

theorem fold_ns {m : Nat} (hm : m ≤ u64Max) :
    allConsuming (foldMany1 satAdd segItemLib) (natDigits m ++ ['n', 's']) = .ok ([], m) := by
  have hshape : natDigits m ++ ['n', 's'] = natDigits m ++ (['n', 's'] ++ []) := by simp
  rw [hshape]
  have hseg : segItemLib (natDigits m ++ (['n', 's'] ++ [])) =
      .ok ([], min (m * 1) u64Max) :=
    segItemLib_int hm (by decide) headFails_nil
  have h1 : min (m * 1) u64Max = m := by
    rw [Nat.mul_one]
    exact Nat.min_eq_left hm
  rw [h1] at hseg
  have hres := foldMany1_single hseg
  rw [satAdd_of_le (by omega), Nat.zero_add] at hres
  exact allConsuming_of_ok_nil hres

theorem fold_dec {n k : Nat} {us : List Char} (hn : n ≤ u64Max) (hk : 10 ^ k ≤ 2 ^ 53)
    (hus : unitExact us = some (10 ^ k)) :
    allConsuming (foldMany1 satAdd segItemLib) (fmtDecChars n k ++ us) = .ok ([], n) := by
  have hshape : fmtDecChars n k ++ us = fmtDecChars n k ++ (us ++ []) := by simp
  rw [hshape]
  have hseg := segItemLib_fmtDec hn hk hus headFails_nil
  have hres := foldMany1_single hseg
  rw [satAdd_of_le (by omega), Nat.zero_add] at hres
  exact allConsuming_of_ok_nil hres

theorem fold_minute {m : Nat} (h1 : NANOS_PER_MINUTE ≤ m) (h2 : m < NANOS_PER_HOUR) :
    allConsuming (foldMany1 satAdd segItemLib)
      (natDigits (m / NANOS_PER_MINUTE) ++ ['m'] ++
        fmtDecChars (m % NANOS_PER_MINUTE) 9 ++ ['s']) = .ok ([], m) := by
  have hmu : m ≤ u64Max := by
    unfold NANOS_PER_HOUR NANOS_PER_MINUTE NANOS_PER_SECOND at h2
    unfold u64Max
    omega
  have hMpos : 0 < NANOS_PER_MINUTE := by
    unfold NANOS_PER_MINUTE NANOS_PER_SECOND
    omega
  have hdivle : m / NANOS_PER_MINUTE ≤ u64Max :=
    le_trans (Nat.div_le_self m NANOS_PER_MINUTE) hmu
  have hdm : m / NANOS_PER_MINUTE * NANOS_PER_MINUTE ≤ m := Nat.div_mul_le_self m _
  have hmodle : m % NANOS_PER_MINUTE ≤ u64Max := le_trans (Nat.mod_le m _) hmu
  have hs9 : (10 : ℕ) ^ 9 ≤ 2 ^ 53 := by norm_num
  have hseg1 : segItemLib (natDigits (m / NANOS_PER_MINUTE) ++
      (['m'] ++ (fmtDecChars (m % NANOS_PER_MINUTE) 9 ++ ['s']))) =
      .ok (fmtDecChars (m % NANOS_PER_MINUTE) 9 ++ ['s'],
        min (m / NANOS_PER_MINUTE * NANOS_PER_MINUTE) u64Max) :=
    segItemLib_int hdivle (by decide) fmtDecChars_headFails
  have hv1 : min (m / NANOS_PER_MINUTE * NANOS_PER_MINUTE) u64Max =
      m / NANOS_PER_MINUTE * NANOS_PER_MINUTE := Nat.min_eq_left (by omega)
  rw [hv1] at hseg1
  have hus_s : unitExact ['s'] = some (10 ^ 9) := by decide
  have hseg2 : segItemLib (fmtDecChars (m % NANOS_PER_MINUTE) 9 ++ ['s']) =
      .ok ([], m % NANOS_PER_MINUTE) := by
    have h := segItemLib_fmtDec hmodle hs9 hus_s headFails_nil
    simpa using h
  have hlen1 : (fmtDecChars (m % NANOS_PER_MINUTE) 9 ++ ['s']).length <
      (natDigits (m / NANOS_PER_MINUTE) ++
        (['m'] ++ (fmtDecChars (m % NANOS_PER_MINUTE) 9 ++ ['s']))).length := by
    simp [List.length_append]
    omega
  have hsum : m / NANOS_PER_MINUTE * NANOS_PER_MINUTE + m % NANOS_PER_MINUTE = m :=
    Nat.div_add_mod' m NANOS_PER_MINUTE
  have hfold := foldMany1_double hseg1 hlen1 hseg2
  rw [satAdd_zero_of_le (by omega), satAdd_of_le (by omega), hsum] at hfold
  have hshape : natDigits (m / NANOS_PER_MINUTE) ++ ['m'] ++
      fmtDecChars (m % NANOS_PER_MINUTE) 9 ++ ['s'] =
      natDigits (m / NANOS_PER_MINUTE) ++
        (['m'] ++ (fmtDecChars (m % NANOS_PER_MINUTE) 9 ++ ['s'])) := by
    simp [List.append_assoc]
  rw [hshape]
  exact allConsuming_of_ok_nil hfold

theorem fold_hour {m : Nat} (h1 : NANOS_PER_HOUR ≤ m) (h2 : m ≤ 2 ^ 63) :
    allConsuming (foldMany1 satAdd segItemLib)
      (natDigits (m / NANOS_PER_HOUR) ++ ['h'] ++
        natDigits (m % NANOS_PER_HOUR / NANOS_PER_MINUTE) ++ ['m'] ++
        fmtDecChars (m % NANOS_PER_HOUR % NANOS_PER_MINUTE) 9 ++ ['s']) = .ok ([], m) := by
  have hmu : m ≤ u64Max := by
    unfold u64Max
    omega
  have hHpos : 0 < NANOS_PER_HOUR := by
    unfold NANOS_PER_HOUR NANOS_PER_MINUTE NANOS_PER_SECOND
    omega
  have hMpos : 0 < NANOS_PER_MINUTE := by
    unfold NANOS_PER_MINUTE NANOS_PER_SECOND
    omega
  have hdivle : m / NANOS_PER_HOUR ≤ u64Max :=
    le_trans (Nat.div_le_self m NANOS_PER_HOUR) hmu
  have hdm : m / NANOS_PER_HOUR * NANOS_PER_HOUR ≤ m := Nat.div_mul_le_self m _
  have hmodH : m % NANOS_PER_HOUR < NANOS_PER_HOUR := Nat.mod_lt _ hHpos
  have hmodHle : m % NANOS_PER_HOUR ≤ u64Max := le_trans (Nat.mod_le m _) hmu
  have hdiv2le : m % NANOS_PER_HOUR / NANOS_PER_MINUTE ≤ u64Max :=
    le_trans (Nat.div_le_self _ _) hmodHle
  have hdm2 : m % NANOS_PER_HOUR / NANOS_PER_MINUTE * NANOS_PER_MINUTE ≤ m % NANOS_PER_HOUR :=
    Nat.div_mul_le_self _ _
  have hmod2 : m % NANOS_PER_HOUR % NANOS_PER_MINUTE < NANOS_PER_MINUTE := Nat.mod_lt _ hMpos
  have hmod2le : m % NANOS_PER_HOUR % NANOS_PER_MINUTE ≤ u64Max :=
    le_trans (Nat.mod_le _ _) hmodHle
  have hs9 : (10 : ℕ) ^ 9 ≤ 2 ^ 53 := by norm_num
  have hseg1 : segItemLib (natDigits (m / NANOS_PER_HOUR) ++
      (['h'] ++ (natDigits (m % NANOS_PER_HOUR / NANOS_PER_MINUTE) ++
        (['m'] ++ (fmtDecChars (m % NANOS_PER_HOUR % NANOS_PER_MINUTE) 9 ++ ['s']))))) =
      .ok (natDigits (m % NANOS_PER_HOUR / NANOS_PER_MINUTE) ++
        (['m'] ++ (fmtDecChars (m % NANOS_PER_HOUR % NANOS_PER_MINUTE) 9 ++ ['s'])),
        min (m / NANOS_PER_HOUR * NANOS_PER_HOUR) u64Max) :=
    segItemLib_int hdivle (by decide)
      (head_digit_headFails (natDigits_ne_nil _) (natDigits_all_digit _))
  have hv1 : min (m / NANOS_PER_HOUR * NANOS_PER_HOUR) u64Max =
      m / NANOS_PER_HOUR * NANOS_PER_HOUR := Nat.min_eq_left (by omega)
  rw [hv1] at hseg1
  have hseg2 : segItemLib (natDigits (m % NANOS_PER_HOUR / NANOS_PER_MINUTE) ++
      (['m'] ++ (fmtDecChars (m % NANOS_PER_HOUR % NANOS_PER_MINUTE) 9 ++ ['s']))) =
      .ok (fmtDecChars (m % NANOS_PER_HOUR % NANOS_PER_MINUTE) 9 ++ ['s'],
        min (m % NANOS_PER_HOUR / NANOS_PER_MINUTE * NANOS_PER_MINUTE) u64Max) :=
    segItemLib_int hdiv2le (by decide) fmtDecChars_headFails
  have hv2 : min (m % NANOS_PER_HOUR / NANOS_PER_MINUTE * NANOS_PER_MINUTE) u64Max =
      m % NANOS_PER_HOUR / NANOS_PER_MINUTE * NANOS_PER_MINUTE := Nat.min_eq_left (by omega)
  rw [hv2] at hseg2
  have hus_s : unitExact ['s'] = some (10 ^ 9) := by decide
  have hseg3 : segItemLib (fmtDecChars (m % NANOS_PER_HOUR % NANOS_PER_MINUTE) 9 ++ ['s']) =
      .ok ([], m % NANOS_PER_HOUR % NANOS_PER_MINUTE) := by
    have h := segItemLib_fmtDec hmod2le hs9 hus_s headFails_nil
    simpa using h
  have hlen1 : (natDigits (m % NANOS_PER_HOUR / NANOS_PER_MINUTE) ++
      (['m'] ++ (fmtDecChars (m % NANOS_PER_HOUR % NANOS_PER_MINUTE) 9 ++ ['s']))).length <
      (natDigits (m / NANOS_PER_HOUR) ++
        (['h'] ++ (natDigits (m % NANOS_PER_HOUR / NANOS_PER_MINUTE) ++
          (['m'] ++ (fmtDecChars (m % NANOS_PER_HOUR % NANOS_PER_MINUTE) 9 ++ ['s']))))).length := by
    simp [List.length_append]
    omega
  have hlen2 : (fmtDecChars (m % NANOS_PER_HOUR % NANOS_PER_MINUTE) 9 ++ ['s']).length <
      (natDigits (m % NANOS_PER_HOUR / NANOS_PER_MINUTE) ++
        (['m'] ++ (fmtDecChars (m % NANOS_PER_HOUR % NANOS_PER_MINUTE) 9 ++ ['s']))).length := by
    simp [List.length_append]
    omega
  have hfold := foldMany1_triple hseg1 hlen1 hseg2 hlen2 hseg3
  have hsum2 : m % NANOS_PER_HOUR / NANOS_PER_MINUTE * NANOS_PER_MINUTE +
      m % NANOS_PER_HOUR % NANOS_PER_MINUTE = m % NANOS_PER_HOUR :=
    Nat.div_add_mod' _ NANOS_PER_MINUTE
  have hsum1 : m / NANOS_PER_HOUR * NANOS_PER_HOUR + m % NANOS_PER_HOUR = m :=
    Nat.div_add_mod' m NANOS_PER_HOUR
  rw [satAdd_zero_of_le (by omega),
    satAdd_of_le (show m / NANOS_PER_HOUR * NANOS_PER_HOUR +
      m % NANOS_PER_HOUR / NANOS_PER_MINUTE * NANOS_PER_MINUTE ≤ u64Max by omega),
    satAdd_of_le (by omega)] at hfold
  have hval : m / NANOS_PER_HOUR * NANOS_PER_HOUR +
      m % NANOS_PER_HOUR / NANOS_PER_MINUTE * NANOS_PER_MINUTE +
      m % NANOS_PER_HOUR % NANOS_PER_MINUTE = m := by omega
  rw [hval] at hfold
  have hshape : natDigits (m / NANOS_PER_HOUR) ++ ['h'] ++
      natDigits (m % NANOS_PER_HOUR / NANOS_PER_MINUTE) ++ ['m'] ++
      fmtDecChars (m % NANOS_PER_HOUR % NANOS_PER_MINUTE) 9 ++ ['s'] =
      natDigits (m / NANOS_PER_HOUR) ++
        (['h'] ++ (natDigits (m % NANOS_PER_HOUR / NANOS_PER_MINUTE) ++
          (['m'] ++ (fmtDecChars (m % NANOS_PER_HOUR % NANOS_PER_MINUTE) 9 ++ ['s'])))) := by
    simp [List.append_assoc]
  rw [hshape]
  exact allConsuming_of_ok_nil hfold

theorem fold_fmtMag {m : Nat} (hm : m ≤ 2 ^ 63) :
    allConsuming (foldMany1 satAdd segItemLib) (fmtMagChars m) = .ok ([], m) := by
  have hmu : m ≤ u64Max := by
    unfold u64Max
    omega
  by_cases hH : NANOS_PER_HOUR ≤ m
  · simp only [fmtMagChars, if_pos hH]
    exact fold_hour hH hm
  · by_cases hM : NANOS_PER_MINUTE ≤ m
    · simp only [fmtMagChars, if_neg hH, if_pos hM]
      exact fold_minute hM (lt_of_not_le hH)
    · by_cases hS : NANOS_PER_SECOND ≤ m
      · simp only [fmtMagChars, if_neg hH, if_neg hM, if_pos hS]
        exact fold_dec hmu (by norm_num) (by decide)
      · by_cases hms : NANOS_PER_MILLISECOND ≤ m
        · simp only [fmtMagChars, if_neg hH, if_neg hM, if_neg hS, if_pos hms]
          exact fold_dec hmu (by norm_num) (by decide)
        · by_cases hmic : NANOS_PER_MICROSECOND ≤ m
          · simp only [fmtMagChars, if_neg hH, if_neg hM, if_neg hS, if_neg hms, if_pos hmic]
            exact fold_dec hmu (by norm_num) (by decide)
          · by_cases h0 : 0 < m
            · simp only [fmtMagChars, if_neg hH, if_neg hM, if_neg hS, if_neg hms, if_neg hmic,
                if_pos h0]
              exact fold_ns hmu
            · have hm0 : m = 0 := by omega
              subst hm0
              decide

theorem fmtMagChars_head (m : Nat) :
    ∃ c cs, fmtMagChars m = c :: cs ∧ c.isDigit = true := by
  have hnd : ∀ (n : Nat) (rest : List Char),
      ∃ c cs, natDigits n ++ rest = c :: cs ∧ c.isDigit = true := by
    intro n rest
    cases hx : natDigits n with
    | nil => exact absurd hx (natDigits_ne_nil n)
    | cons c cs =>
      refine ⟨c, cs ++ rest, by simp, ?_⟩
      exact natDigits_all_digit n c (by rw [hx]; exact List.mem_cons_self c cs)
  unfold fmtMagChars
  split_ifs with hH hM hS hms hmic h0
  · simp only [List.append_assoc]
    exact hnd _ _
  · simp only [List.append_assoc]
    exact hnd _ _
  · simp only [fmtDecChars, List.append_assoc]
    exact hnd _ _
  · simp only [fmtDecChars, List.append_assoc]
    exact hnd _ _
  · simp only [fmtDecChars, List.append_assoc]
    exact hnd _ _
  · exact hnd _ _
  · exact ⟨'0', ['s'], rfl, by decide⟩

theorem sign_no_sign {input : List Char} {c : Char} {cs : List Char}
    (hc : input = c :: cs) (hdig : c.isDigit = true) : sign input = .ok (input, true) := by
  have hcm : c ≠ '-' := by
    intro h
    rw [h] at hdig
    exact absurd hdig (by decide)
  have hcp : c ≠ '+' := by
    intro h
    rw [h] at hdig
    exact absurd hdig (by decide)
  have h1 : valueP false (charP '-') (c :: cs) = .error (.error .invalidDuration) := by
    unfold valueP
    rw [charP_cons_ne hcm]
  have h2 : valueP true (charP '+') (c :: cs) = .error (.error .invalidDuration) := by
    unfold valueP
    rw [charP_cons_ne hcp]
  have h3 : altP (valueP false (charP '-')) (valueP true (charP '+')) (c :: cs) =
      .error (.error .invalidDuration) := by
    rw [altP_first_error h1]
    exact h2
  unfold sign
  rw [hc, optP_of_error h3]
  rfl

theorem sign_dash {rest : List Char} : sign ('-' :: rest) = .ok (rest, false) := by
  have h1 : valueP false (charP '-') ('-' :: rest) = .ok (rest, false) := by
    unfold valueP
    rw [charP_cons_self]
  unfold sign
  rw [optP_of_ok (altP_first_ok h1)]
  rfl

theorem parse_fmt {d : Int} (h1 : -(2 ^ 63) ≤ d) (h2 : d < 2 ^ 63) :
    parse_go_duration (fmtChars d) = .ok ([], ⟨d⟩) := by
  have habs : d.natAbs ≤ 2 ^ 63 := by omega
  have hfold := fold_fmtMag habs
  by_cases hneg : d < 0
  · have hfc : fmtChars d = '-' :: fmtMagChars d.natAbs := by
      simp [fmtChars, hneg]
    have hcs : checkedSubUnsigned d.natAbs = some d := by
      unfold checkedSubUnsigned
      rw [if_pos (by omega)]
      congr 1
      omega
    rw [hfc]
    simp only [parse_go_duration, sign_dash, hfold, Bool.false_eq_true, if_false, hcs]
  · have hfc : fmtChars d = fmtMagChars d.natAbs := by
      simp [fmtChars, hneg]
    obtain ⟨c, cs, hcons, hdig⟩ := fmtMagChars_head d.natAbs
    have hsign := sign_no_sign hcons hdig
    have hd : ((d.natAbs : ℕ) : Int) = d := by omega
    rw [hfc]
    simp only [parse_go_duration, hsign, hfold, if_true,
      if_pos (show d.natAbs ≤ i64MaxNat by unfold i64MaxNat; omega), hd]

/-- C1: for every i64 value d, parsing the formatted string succeeds and
yields d back, hence formatting the parse result reproduces the formatted
string: format(parse(format(d)).unwrap()) = format(d). -/
theorem c1_roundtrip (d : Int) (h1 : -(2 ^ 63) ≤ d) (h2 : d < 2 ^ 63) :
    goDurationFromStr (fmtGoDuration ⟨d⟩) = .ok ⟨d⟩ ∧
    (∃ r : GoDuration, goDurationFromStr (fmtGoDuration ⟨d⟩) = .ok r ∧
      fmtGoDuration r = fmtGoDuration ⟨d⟩) := by
  have hp := parse_fmt h1 h2
  have hok : goDurationFromStr (fmtGoDuration ⟨d⟩) = .ok ⟨d⟩ := by
    unfold goDurationFromStr
    have hstr : (fmtGoDuration ⟨d⟩).toList = fmtChars d := rfl
    rw [hstr, hp]
  exact ⟨hok, ⟨d⟩, hok, rfl⟩

/-- C1 witness: the roundtrip at `i64::MIN`. -/
theorem c1_roundtrip_witness :
    goDurationFromStr (fmtGoDuration ⟨-(2 ^ 63)⟩) = .ok ⟨-(2 ^ 63)⟩ ∧
    (∃ r : GoDuration, goDurationFromStr (fmtGoDuration ⟨-(2 ^ 63)⟩) = .ok r ∧
      fmtGoDuration r = fmtGoDuration ⟨-(2 ^ 63)⟩) :=
  c1_roundtrip (-(2 ^ 63)) (le_refl _) (by norm_num)

/-! ## Concrete f64 rounding computations for the truncation claim -/

theorem headFails_cons {p : Char → Bool} {x : Char} {xs : List Char} (h : p x = false) :
    headFails p (x :: xs) := by
  intro c hc
  simp only [List.head?_cons, Option.some.injEq] at hc
  rw [← hc]
  exact h

theorem sign_other {c : Char} {cs : List Char} (hcm : c ≠ '-') (hcp : c ≠ '+') :
    sign (c :: cs) = .ok (c :: cs, true) := by
  have h1 : valueP false (charP '-') (c :: cs) = .error (.error .invalidDuration) := by
    unfold valueP
    rw [charP_cons_ne hcm]
  have h2 : valueP true (charP '+') (c :: cs) = .error (.error .invalidDuration) := by
    unfold valueP
    rw [charP_cons_ne hcp]
  have h3 : altP (valueP false (charP '-')) (valueP true (charP '+')) (c :: cs) =
      .error (.error .invalidDuration) := by
    rw [altP_first_error h1]
    exact h2
  unfold sign
  rw [optP_of_error h3]
  rfl

theorem dp_dot {fs rest : List Char} (hfs : fs ≠ []) (hfsd : ∀ c ∈ fs, c.isDigit = true)
    (hrest : headFails Char.isDigit rest) :
    decimal_parts ('.' :: (fs ++ rest)) = .ok (rest, (0, some fs)) := by
  have hdot : dpDotFirst ('.' :: (fs ++ rest)) = .ok (rest, (0, some fs)) := by
    unfold dpDotFirst
    rw [precededP_of_ok (charP_cons_self '.' (fs ++ rest)), digit1_append hfs hfsd hrest]
  unfold decimal_parts
  rw [altP_first_ok hdot]

theorem rne_eval_down {x : ℚ} {n : ℤ} (h1 : (n : ℚ) ≤ x) (h2 : x < n + 1 / 2) : rne x = n := by
  have hf : ⌊x⌋ = n := Int.floor_eq_iff.mpr ⟨h1, by push_cast; linarith⟩
  unfold rne
  rw [hf, if_pos (by push_cast; linarith)]

theorem rne_eval_up {x : ℚ} {n : ℤ} (h15 : (n : ℚ) + 1 / 2 < x) (h2 : x < n + 1) :
    rne x = n + 1 := by
  have hf : ⌊x⌋ = n := Int.floor_eq_iff.mpr ⟨by push_cast at h15 ⊢; linarith, by push_cast; linarith⟩
  unfold rne
  rw [hf, if_neg (by push_cast; linarith), if_pos (by push_cast; linarith)]

theorem roundF64_eval_pos {q : ℚ} {j m : ℤ} (hq : 0 < q)
    (hj1 : (2 : ℚ) ^ j ≤ q) (hj2 : q < (2 : ℚ) ^ (j + 1)) (hj3 : (-1022 : ℤ) ≤ j)
    (hm : rne (q / (2 : ℚ) ^ (j - 52)) = m) :
    roundF64 q = (m : ℚ) * (2 : ℚ) ^ (j - 52) := by
  have hq0 : q ≠ 0 := ne_of_gt hq
  have hlog : qlog2 |q| = j := by
    rw [abs_of_pos hq]
    exact qlog2_unique hq hj1 hj2
  simp only [roundF64, if_neg hq0, hlog]
  rw [show max (j - 52) (-1074 : ℤ) = j - 52 by omega, hm]

/-- The f64 nearest to 1/10, reached by the fraction loop dividing a scale
of 1 by 10. -/
theorem roundF64_tenth : roundF64 (1 / 10 : ℚ) = (7205759403792794 : ℚ) * 2 ^ (-56 : ℤ) := by
  have hrne : rne ((1 / 10 : ℚ) / (2 : ℚ) ^ ((-4 : ℤ) - 52)) = 7205759403792794 := by
    have hx : ((1 / 10 : ℚ)) / (2 : ℚ) ^ ((-4 : ℤ) - 52) = 72057594037927936 / 10 := by
      norm_num
    have h2 := @rne_eval_up (72057594037927936 / 10 : ℚ) 7205759403792793 (by norm_num)
      (by norm_num)
    rw [hx]
    exact h2.trans (by norm_num)
  have h := roundF64_eval_pos (show (0 : ℚ) < 1 / 10 by norm_num)
    (show (2 : ℚ) ^ (-4 : ℤ) ≤ 1 / 10 by norm_num)
    (show (1 / 10 : ℚ) < (2 : ℚ) ^ ((-4 : ℤ) + 1) by norm_num)
    (by norm_num) hrne
  rw [h]
  norm_num

theorem fracNanos_one_tenth : fracNanos 1 ['1'] = 0 := by
  have hmap : (['1'] : List Char).map digitVal = [1] := by decide
  have hQ1 : roundF64 ((((1 : ℕ) : ℚ)) / 10) = (7205759403792794 : ℚ) * 2 ^ (-56 : ℤ) := by
    rw [Nat.cast_one]
    exact roundF64_tenth
  have hcastq : ((7205759403792794 : ℤ) : ℚ) = (7205759403792794 : ℚ) := by norm_num
  have hrep : roundF64 ((7205759403792794 : ℚ) * 2 ^ (-56 : ℤ)) =
      (7205759403792794 : ℚ) * 2 ^ (-56 : ℤ) := by
    rw [← hcastq]
    exact roundF64_rep (by decide) (by decide)
  have hmul : (7205759403792794 : ℚ) * 2 ^ (-56 : ℤ) * ((1 : ℕ) : ℚ) =
      (7205759403792794 : ℚ) * 2 ^ (-56 : ℤ) := by
    norm_num
  have hfloor : ⌊(7205759403792794 : ℚ) * 2 ^ (-56 : ℤ)⌋ = 0 :=
    Int.floor_eq_iff.mpr ⟨by norm_num, by norm_num⟩
  unfold fracNanos
  rw [hmap]
  simp only [fracLoop, hQ1, hmul, hrep, zero_add, hfloor]
  rfl

theorem fracNanos_nine_tenths : fracNanos 1 ['9'] = 0 := by
  have hmap : (['9'] : List Char).map digitVal = [9] := by decide
  have hQ1 : roundF64 ((((1 : ℕ) : ℚ)) / 10) = (7205759403792794 : ℚ) * 2 ^ (-56 : ℤ) := by
    rw [Nat.cast_one]
    exact roundF64_tenth
  have hmul : (7205759403792794 : ℚ) * 2 ^ (-56 : ℤ) * ((9 : ℕ) : ℚ) =
      (64851834634135146 : ℚ) * 2 ^ (-56 : ℤ) := by
    norm_num
  have hrne : rne (((64851834634135146 : ℚ) * 2 ^ (-56 : ℤ)) / (2 : ℚ) ^ ((-1 : ℤ) - 52)) =
      8106479329266893 := by
    have hx : ((64851834634135146 : ℚ) * 2 ^ (-56 : ℤ)) / (2 : ℚ) ^ ((-1 : ℤ) - 52) =
        64851834634135146 / 8 := by
      norm_num
    rw [hx]
    exact @rne_eval_down (64851834634135146 / 8 : ℚ) 8106479329266893 (by norm_num) (by norm_num)
  have hprod : roundF64 ((64851834634135146 : ℚ) * 2 ^ (-56 : ℤ)) =
      (8106479329266893 : ℚ) * 2 ^ (-53 : ℤ) := by
    have h := roundF64_eval_pos (show (0 : ℚ) < (64851834634135146 : ℚ) * 2 ^ (-56 : ℤ) by norm_num)
      (show (2 : ℚ) ^ (-1 : ℤ) ≤ (64851834634135146 : ℚ) * 2 ^ (-56 : ℤ) by norm_num)
      (show (64851834634135146 : ℚ) * 2 ^ (-56 : ℤ) < (2 : ℚ) ^ ((-1 : ℤ) + 1) by norm_num)
      (by norm_num) hrne
    rw [h]
    norm_num
  have hcastq : ((8106479329266893 : ℤ) : ℚ) = (8106479329266893 : ℚ) := by norm_num
  have hrep : roundF64 ((8106479329266893 : ℚ) * 2 ^ (-53 : ℤ)) =
      (8106479329266893 : ℚ) * 2 ^ (-53 : ℤ) := by
    rw [← hcastq]
    exact roundF64_rep (by decide) (by decide)
  have hfloor : ⌊(8106479329266893 : ℚ) * 2 ^ (-53 : ℤ)⌋ = 0 :=
    Int.floor_eq_iff.mpr ⟨by norm_num, by norm_num⟩
  unfold fracNanos
  rw [hmap]
  simp only [fracLoop, hQ1, hmul, hprod, hrep, zero_add, hfloor]
  rfl

theorem segItem_dot1us : segItemLib ['.', '1', 'u', 's'] = .ok ([], 100) := by
  have hdp : decimal_parts ['.', '1', 'u', 's'] = .ok (['u', 's'], (0, some ['1'])) := by
    have h := dp_dot (show (['1'] : List Char) ≠ [] by decide) (by decide)
      (headFails_cons (by decide) : headFails Char.isDigit ['u', 's'])
    simpa using h
  have hunit : cutP unit ['u', 's'] = .ok ([], 1000) := cutP_of_ok (by decide)
  have hf : fracNanos 1000 ['1'] = 100 := by
    have h1 : (1000 : ℕ) = 10 ^ 3 := by norm_num
    have h2 : (['1'] : List Char) = [1].map digitChar := by decide
    rw [h1, h2, fracNanos_exact (by decide) (by decide) (by norm_num)]
    decide
  simp only [segItemLib, hdp, hunit, Option.map_some', Option.getD_some, hf]
  decide

theorem parse_dot1us : goDurationFromStr ".1us" = .ok ⟨100⟩ := by
  have hsign : sign ['.', '1', 'u', 's'] = .ok (['.', '1', 'u', 's'], true) :=
    sign_other (by decide) (by decide)
  have hfold : foldMany1 satAdd segItemLib ['.', '1', 'u', 's'] = .ok ([], 100) := by
    have h := foldMany1_single segItem_dot1us
    rwa [show satAdd 0 100 = 100 by decide] at h
  have hac := allConsuming_of_ok_nil hfold
  have hparse : parse_go_duration ['.', '1', 'u', 's'] = .ok ([], ⟨100⟩) := by
    simp only [parse_go_duration, hsign, hac, if_true,
      if_pos (show (100 : ℕ) ≤ i64MaxNat by decide)]
    rfl
  unfold goDurationFromStr
  rw [show ".1us".toList = ['.', '1', 'u', 's'] from rfl, hparse]

theorem segItem_dot1ns : segItemLib ['.', '1', 'n', 's', '0', '.', '9', 'n', 's'] =
    .ok (['0', '.', '9', 'n', 's'], 0) := by
  have hdp : decimal_parts ['.', '1', 'n', 's', '0', '.', '9', 'n', 's'] =
      .ok (['n', 's', '0', '.', '9', 'n', 's'], (0, some ['1'])) := by
    have h := dp_dot (show (['1'] : List Char) ≠ [] by decide) (by decide)
      (headFails_cons (by decide) : headFails Char.isDigit ['n', 's', '0', '.', '9', 'n', 's'])
    simpa using h
  have hunit : cutP unit ['n', 's', '0', '.', '9', 'n', 's'] =
      .ok (['0', '.', '9', 'n', 's'], 1) := by
    apply cutP_of_ok
    have h := unit_append (show unitExact ['n', 's'] = some 1 by decide)
      (headFails_cons (by decide) : headFails (fun c => !stopChar c) ['0', '.', '9', 'n', 's'])
    simpa using h
  simp only [segItemLib, hdp, hunit, Option.map_some', Option.getD_some, fracNanos_one_tenth]
  decide

theorem segItem_09ns : segItemLib ['0', '.', '9', 'n', 's'] = .ok ([], 0) := by
  have hdp : decimal_parts ['0', '.', '9', 'n', 's'] = .ok (['n', 's'], (0, some ['9'])) := by
    have h := dp_frac (show (0 : ℕ) ≤ u64Max by decide) (show ∀ c ∈ (['9'] : List Char), c.isDigit = true by decide)
      (headFails_cons (by decide) : headFails Char.isDigit ['n', 's'])
    have h2 : (natDigits 0 ++ '.' :: ((['9'] : List Char) ++ ['n', 's'])) =
        ['0', '.', '9', 'n', 's'] := by decide
    rwa [h2] at h
  have hunit : cutP unit ['n', 's'] = .ok ([], 1) := cutP_of_ok (by decide)
  simp only [segItemLib, hdp, hunit, Option.map_some', Option.getD_some, fracNanos_nine_tenths]
  decide

theorem parse_dot1ns09ns : goDurationFromStr ".1ns0.9ns" = .ok ⟨0⟩ := by
  have hsign : sign ['.', '1', 'n', 's', '0', '.', '9', 'n', 's'] =
      .ok (['.', '1', 'n', 's', '0', '.', '9', 'n', 's'], true) :=
    sign_other (by decide) (by decide)
  have hfold : foldMany1 satAdd segItemLib ['.', '1', 'n', 's', '0', '.', '9', 'n', 's'] =
      .ok ([], 0) := by
    have h := foldMany1_double segItem_dot1ns (by decide) segItem_09ns
    rwa [show satAdd (satAdd 0 0) 0 = 0 by decide] at h
  have hac := allConsuming_of_ok_nil hfold
  have hparse : parse_go_duration ['.', '1', 'n', 's', '0', '.', '9', 'n', 's'] =
      .ok ([], ⟨0⟩) := by
    simp only [parse_go_duration, hsign, hac, if_true,
      if_pos (show (0 : ℕ) ≤ i64MaxNat by decide)]
    rfl
  unfold goDurationFromStr
  rw [show ".1ns0.9ns".toList = ['.', '1', 'n', 's', '0', '.', '9', 'n', 's'] from rfl, hparse]

/-- C6: fractional digits are evaluated digit-by-digit, dividing the unit
scale by 10 per digit in f64 arithmetic, summing the weighted digit values
in f64, and truncating (not rounding) the sum: ".1us" parses to exactly
100 ns; ".1ns0.9ns" parses to 0 (each fractional part truncates to zero —
rounding would give 1); and in the exact regime (at most k digits under a
10^k scale) the float evaluation yields exactly the weighted digit sum. -/
theorem c6_fractional_digits :
    goDurationFromStr ".1us" = .ok ⟨100⟩ ∧
    goDurationFromStr ".1ns0.9ns" = .ok ⟨0⟩ ∧
    (∀ (k : Nat) (ds : List Nat), ds.length ≤ k → (∀ d ∈ ds, d < 10) → 10 ^ k ≤ 2 ^ 53 →
      fracNanos (10 ^ k) (ds.map digitChar) = fracVal k ds) :=
  ⟨parse_dot1us, parse_dot1ns09ns, fun _ _ h1 h2 h3 => fracNanos_exact h1 h2 h3⟩

/-- C6 witness: the exact-regime conjunct applied to one digit 1 under the
microsecond scale. -/
theorem c6_fractional_digits_witness :
    fracNanos (10 ^ 3) ([1].map digitChar) = fracVal 3 [1] :=
  c6_fractional_digits.2.2 3 [1] (by decide) (by decide) (by norm_num)
